import Mathlib

/-!
Verification of the TalentScout hiring-assistant chatbot (`app.py`).

The development shallowly embeds the pure core of the program:

* the regex-based field extractors (`extract_name`, `extract_position`,
  `extract_email`, `extract_phone`, `extract_yoe`), modelled as explicit
  leftmost-match scanners over `List Char` with the same greedy/backtracking
  behaviour as the Python `re` patterns (character classes are the explicit
  ASCII ranges written in the patterns);
* the transcript anonymizer `anonymize_text` (two `re.sub` passes);
* the OpenRouter completion client `call_openrouter_chat`, with the HTTP
  transport abstracted as a function from attempt number to an outcome;
* the Streamlit main loop, modelled as a turn-step function `processTurn`
  over an explicit session state.  `Option` is used for the result: `none`
  models an uncaught Python exception aborting the turn.

Unicode remark: the Python patterns use explicit ASCII classes
(`[A-Za-z0-9...]`); `\d`, `\s` and `str.strip` are modelled by their ASCII
behaviour, which is what every claim exercises.
-/

/-! ## Basic character classes and string helpers -/

/-- The apostrophe character (ASCII 39). -/
def apos : Char := Char.ofNat 39

/-- Python `\s` / `str.strip` whitespace, ASCII part:
space, tab, newline, carriage return, form feed, vertical tab. -/
def isSpaceChar (c : Char) : Bool :=
  c = ' ' || c = '\t' || c = '\n' || c = '\r' || c = Char.ofNat 12 || c = Char.ofNat 11

/-- Character class `[A-Za-z0-9._%+-]` (local part of `EMAIL_RE`). -/
def isLocalChar (c : Char) : Bool :=
  c.isAlpha || c.isDigit || c = '.' || c = '_' || c = '%' || c = '+' || c = '-'

/-- Character class `[A-Za-z0-9.-]` (domain part of `EMAIL_RE`). -/
def isDomainChar (c : Char) : Bool :=
  c.isAlpha || c.isDigit || c = '.' || c = '-'

/-- Character class `[\d\-\s]` (interior of `PHONE_RE`). -/
def isPhoneChar (c : Char) : Bool :=
  c.isDigit || c = '-' || isSpaceChar c

/-- Character class `[A-Za-z'_\-]` (name-word tail in the `extract_name` pattern). -/
def isWordChar (c : Char) : Bool :=
  c.isAlpha || c = apos || c = '_' || c = '-'

/-- Python `str.strip()` on a character list. -/
def stripChars (l : List Char) : List Char :=
  ((l.dropWhile isSpaceChar).reverse.dropWhile isSpaceChar).reverse

/-- Python `str.strip()`. -/
def pyStrip (s : String) : String := String.mk (stripChars s.data)

/-- Python `str.lower()` (ASCII). -/
def pyLower (s : String) : String := String.mk (s.data.map Char.toLower)

/-- Python `str.title()`: uppercase every letter that follows a non-letter
(or starts the string), lowercase every other letter.  The boolean argument
records whether the previous character was a (cased) letter. -/
def titleChars : List Char → Bool → List Char
  | [], _ => []
  | c :: rest, prevCased =>
    (if c.isAlpha then (if prevCased then c.toLower else c.toUpper) else c)
      :: titleChars rest c.isAlpha

/-- Python `str.title()` on a string. -/
def pyTitle (s : String) : String := String.mk (titleChars s.data false)

/-- `headMatch s l`: `s` is a leading block of `l`. -/
def headMatch : List Char → List Char → Bool
  | [], _ => true
  | _ :: _, [] => false
  | c :: cs, d :: ds => c = d && headMatch cs ds

/-- `occursIn s l`: `s` occurs as a contiguous block of `l`
(Python `s in l` substring containment). -/
def occursIn (s : List Char) : List Char → Bool
  | [] => s.isEmpty
  | c :: ds => headMatch s (c :: ds) || occursIn s ds

/-! ## `EMAIL_RE = [A-Za-z0-9._%+-]+@[A-Za-z0-9.-]+\.[A-Za-z]{2,}`

`matchEmailAt l` returns the length of the (greedy, backtracking) match of
`EMAIL_RE` anchored at the head of `l`, if any.  Greedy `+` runs followed by a
character outside the class need no backtracking; the domain run `[A-Za-z0-9.-]+`
is backtracked from longest to shortest to leave a `\.[A-Za-z]{2,}` tail, which
is exactly what `domainBT` does (largest viable split wins). -/

/-- Match `\.[A-Za-z]{2,}` at the head of `l`; returns the matched length. -/
def matchDotTld : List Char → Option Nat
  | [] => none
  | c :: rest =>
    if c = '.' then
      let t := rest.takeWhile Char.isAlpha
      if 2 ≤ t.length then some (1 + t.length) else none
    else none

/-- Backtracking search for the domain split: try `[A-Za-z0-9.-]+` of length
`k, k-1, ..., 1` followed by `\.[A-Za-z]{2,}`; returns total matched length. -/
def domainBT (l : List Char) : Nat → Option Nat
  | 0 => none
  | k + 1 =>
    match matchDotTld (l.drop (k + 1)) with
    | some t => some (k + 1 + t)
    | none => domainBT l k

/-- Match `EMAIL_RE` anchored at the head of `l`; returns the matched length. -/
def matchEmailAt (l : List Char) : Option Nat :=
  if (l.takeWhile isLocalChar).length = 0 then none
  else
    match l.drop (l.takeWhile isLocalChar).length with
    | c :: rest =>
      if c = '@' then
        match domainBT rest (rest.takeWhile isDomainChar).length with
        | some d => some ((l.takeWhile isLocalChar).length + 1 + d)
        | none => none
      else none
    | [] => none

/-- Leftmost-match scanner: `re.search` for a pattern whose anchored matcher
returns a match length; the result is the matched block (`m.group(0)`). -/
def scanSearch (matchAt : List Char → Option Nat) : List Char → Option (List Char)
  | [] => none
  | c :: rest =>
    match matchAt (c :: rest) with
    | some n => some ((c :: rest).take n)
    | none => scanSearch matchAt rest

/-- `extract_email` (`app.py` line 122-123): first `EMAIL_RE` match, else `""`. -/
def extract_email (text : String) : String :=
  match scanSearch matchEmailAt text.data with
  | some m => String.mk m
  | none => ""

example : extract_email "contact a@b.co today" = "a@b.co" := by decide
example : extract_email "a@b.co.uk" = "a@b.co.uk" := by decide
example : extract_email "no email here" = "" := by decide
example : extract_email "a@b.cc x@y.dd" = "a@b.cc" := by decide
example : extract_email "xa@b.com" = "xa@b.com" := by decide

/-! ## `PHONE_RE = (?:\+?\d[\d\-\s]{7,}\d)`

The interior `[\d\-\s]{7,}` is greedy and backtracks until a final `\d`
succeeds, i.e. the match extends to the last digit (at interior index at
least 7) inside the maximal `[\d\-\s]` run. -/

/-- Index of the last digit of a list, if any. -/
def findLastDigitIdx : List Char → Option Nat
  | [] => none
  | c :: rest =>
    match findLastDigitIdx rest with
    | some i => some (i + 1)
    | none => if c.isDigit then some 0 else none

/-- Backtracked end of `[\d\-\s]{7,}\d` inside the maximal class run:
the last digit index, provided it is at least 7. -/
def lastDigit7 (run : List Char) : Option Nat :=
  match findLastDigitIdx run with
  | some i => if 7 ≤ i then some i else none
  | none => none

/-- Match `\d[\d\-\s]{7,}\d` anchored at the head of `l`; returns matched length. -/
def matchPhoneCore (l : List Char) : Option Nat :=
  match l with
  | [] => none
  | c :: rest =>
    if c.isDigit then
      match lastDigit7 (rest.takeWhile isPhoneChar) with
      | some k => some (1 + k + 1)
      | none => none
    else none

/-- Match `PHONE_RE` anchored at the head of `l` (optional leading `+`). -/
def matchPhoneAt (l : List Char) : Option Nat :=
  match l with
  | [] => none
  | c :: l1 =>
    if c = '+' then (matchPhoneCore l1).map (· + 1)
    else matchPhoneCore (c :: l1)

/-- `extract_phone` (`app.py` line 125-126): first `PHONE_RE` match, stripped. -/
def extract_phone (text : String) : String :=
  match scanSearch matchPhoneAt text.data with
  | some m => String.mk (stripChars m)
  | none => ""

example : extract_phone "+1 234 567 8901" = "+1 234 567 8901" := by decide
example : extract_phone "1-2-3-4-5" = "1-2-3-4-5" := by decide
example : extract_phone "call 12345678" = "" := by decide
example : extract_phone "num 123456789 now" = "123456789" := by decide

/-! ## Literal and phrase matching for `extract_name` / `extract_position` / `extract_yoe`

All three patterns are compiled with `re.I`; literals are matched
case-insensitively.  `\s+`/`\s*` are greedy; since every character that can
follow them in these patterns is not whitespace, the greedy run needs no
backtracking.  Alternations are tried left to right, and a failed
continuation falls through to the next alternative. -/

/-- Case-insensitive character comparison (for `re.I`). -/
def lcEq (c d : Char) : Bool := c.toLower = d.toLower

/-- Match a literal (case-insensitively) at the head; returns the remainder. -/
def matchLit : List Char → List Char → Option (List Char)
  | [], l => some l
  | _ :: _, [] => none
  | c :: cs, d :: ds => if lcEq c d then matchLit cs ds else none

/-- Match `\s+` at the head (greedy, at least one); returns the remainder. -/
def matchSpaces1 (l : List Char) : Option (List Char) :=
  if (l.takeWhile isSpaceChar).length = 0 then none
  else some (l.drop (l.takeWhile isSpaceChar).length)

/-- Match one name word `[A-Za-z][A-Za-z'_\-]+` (a letter plus at least one
more word character); returns the word and the remainder. -/
def matchWord (l : List Char) : Option (List Char × List Char) :=
  match l with
  | [] => none
  | c :: rest =>
    if c.isAlpha then
      if (rest.takeWhile isWordChar).length = 0 then none
      else some (c :: rest.takeWhile isWordChar, rest.drop (rest.takeWhile isWordChar).length)
    else none

/-- Greedy `(?:\s+[A-Za-z][A-Za-z'_\-]+){0,fuel}`: returns the captured
characters (spaces included) and the remainder. -/
def repWords : Nat → List Char → (List Char × List Char)
  | 0, l => ([], l)
  | fuel + 1, l =>
    if (l.takeWhile isSpaceChar).length = 0 then ([], l)
    else
      match matchWord (l.drop (l.takeWhile isSpaceChar).length) with
      | some (w, r2) =>
        (l.takeWhile isSpaceChar ++ w ++ (repWords fuel r2).1, (repWords fuel r2).2)
      | none => ([], l)

/-- The capture group `([A-Za-z][A-Za-z'_\-]+(?:\s+[A-Za-z][A-Za-z'_\-]+){1,3})`. -/
def captureWords (l : List Char) : Option (List Char) :=
  match matchWord l with
  | some (w, r) =>
    if (repWords 3 r).1.length = 0 then none else some (w ++ (repWords 3 r).1)
  | none => none

/-- `\s+` followed by the name capture group. -/
def matchNameTail (l : List Char) : Option (List Char) :=
  match matchSpaces1 l with
  | some r => captureWords r
  | none => none

/-- First alternative `my\s+name\s+is` of the `extract_name` trigger,
followed by `\s+` and the capture. -/
def nameAlt1 (l : List Char) : Option (List Char) := do
  let r ← matchLit ['m', 'y'] l
  let r ← matchSpaces1 r
  let r ← matchLit ['n', 'a', 'm', 'e'] r
  let r ← matchSpaces1 r
  let r ← matchLit ['i', 's'] r
  matchNameTail r

/-- Second alternative `i\s*am`, followed by `\s+` and the capture. -/
def nameAlt2 (l : List Char) : Option (List Char) := do
  let r ← matchLit ['i'] l
  let r2 := r.drop (r.takeWhile isSpaceChar).length
  let r3 ← matchLit ['a', 'm'] r2
  matchNameTail r3

/-- Third alternative `i\'m`, followed by `\s+` and the capture. -/
def nameAlt3 (l : List Char) : Option (List Char) := do
  let r ← matchLit ['i', apos, 'm'] l
  matchNameTail r

/-- Match the `extract_name` pattern
`(?:my\s+name\s+is|i\s*am|i\'m)\s+(...)` anchored at the head of `l`;
returns the capture group.  Alternatives are tried in the pattern's order,
falling through when the continuation fails, as the regex engine does. -/
def matchNameAt (l : List Char) : Option (List Char) :=
  (nameAlt1 l <|> nameAlt2 l) <|> nameAlt3 l

/-- Leftmost-match scanner returning a capture group. -/
def scanCapture (matchAt : List Char → Option (List Char)) : List Char → Option (List Char)
  | [] => none
  | c :: rest =>
    match matchAt (c :: rest) with
    | some cap => some cap
    | none => scanCapture matchAt rest

/-- `extract_name` (`app.py` line 114-116): `m.group(1).strip().title()` or `""`. -/
def extract_name (text : String) : String :=
  match scanCapture matchNameAt text.data with
  | some cap => String.mk (titleChars (stripChars cap) false)
  | none => ""

example : extract_name "My name is Jane Doe, hello" = "Jane Doe" := by decide
example : extract_name "my name is jane doe" = "Jane Doe" := by decide
example : extract_name "i am john smith" = "John Smith" := by decide
example : extract_name "hello there" = "" := by decide
example : extract_name "My name is X" = "" := by decide

/-- Match `.+` (greedy, anything but newline, at least one char) as a capture. -/
def matchRestOfLine (l : List Char) : Option (List Char) :=
  let cap := l.takeWhile (fun c => c ≠ '\n')
  if cap.length = 0 then none else some cap

/-- Match the `extract_position` pattern
`(?:looking\s+for|applying\s+for|interested\s+in|targeting|role\s+of|position\s+of)\s+(.+)`
anchored at the head of `l`; returns the capture group. -/
def matchPosAt (l : List Char) : Option (List Char) :=
  let two (a b : List Char) : Option (List Char) := do
    let r ← matchLit a l
    let r ← matchSpaces1 r
    let r ← matchLit b r
    let r ← matchSpaces1 r
    matchRestOfLine r
  let one (a : List Char) : Option (List Char) := do
    let r ← matchLit a l
    let r ← matchSpaces1 r
    matchRestOfLine r
  (two ['l','o','o','k','i','n','g'] ['f','o','r'] <|>
   two ['a','p','p','l','y','i','n','g'] ['f','o','r'] <|>
   two ['i','n','t','e','r','e','s','t','e','d'] ['i','n'] <|>
   one ['t','a','r','g','e','t','i','n','g'] <|>
   two ['r','o','l','e'] ['o','f'] <|>
   two ['p','o','s','i','t','i','o','n'] ['o','f'])

/-- `extract_position` (`app.py` line 118-120): `m.group(1).strip()` or `""`. -/
def extract_position (text : String) : String :=
  match scanCapture matchPosAt text.data with
  | some cap => String.mk (stripChars cap)
  | none => ""

example : extract_position "I'm applying for Backend Engineer" = "Backend Engineer" := by decide
example : extract_position "just chatting" = "" := by decide

/-! ## `YOE_RE = (\d+(?:\.\d+)?)\s*(?:years|yrs|yoe|year)s?` (re.I) -/

/-- Match `(?:years|yrs|yoe|year)s?` case-insensitively; returns matched length. -/
def matchYoeUnit (l : List Char) : Option Nat :=
  let finish (base : Nat) (r : List Char) : Nat :=
    match r with
    | d :: _ => if lcEq 's' d then base + 1 else base
    | [] => base
  match matchLit ['y','e','a','r','s'] l with
  | some r => some (finish 5 r)
  | none =>
    match matchLit ['y','r','s'] l with
    | some r => some (finish 3 r)
    | none =>
      match matchLit ['y','o','e'] l with
      | some r => some (finish 3 r)
      | none =>
        match matchLit ['y','e','a','r'] l with
        | some r => some (finish 4 r)
        | none => none

/-- Match `YOE_RE` anchored at the head of `l`; returns matched length. -/
def matchYoeAt (l : List Char) : Option Nat :=
  let ds := l.takeWhile Char.isDigit
  if ds.length = 0 then none
  else
    let l1 := l.drop ds.length
    let (fracLen, l2) :=
      match l1 with
      | '.' :: r =>
        let fs := r.takeWhile Char.isDigit
        if fs.length = 0 then (0, l1) else (1 + fs.length, r.drop fs.length)
      | _ => (0, l1)
    let sp := l2.takeWhile isSpaceChar
    match matchYoeUnit (l2.drop sp.length) with
    | some ulen => some (ds.length + fracLen + sp.length + ulen)
    | none => none

/-- `extract_yoe` (`app.py` line 128-129): first `YOE_RE` match (`group(0)`), or `""`. -/
def extract_yoe (text : String) : String :=
  match scanSearch matchYoeAt text.data with
  | some m => String.mk m
  | none => ""

example : extract_yoe "I have 12 years of practice" = "12 years" := by decide
example : extract_yoe "3.5yrs" = "3.5yrs" := by decide
example : extract_yoe "none" = "" := by decide

/-! ## `anonymize_text` (`app.py` line 153-156)

`re.sub(pat, token, text)`: scan left to right; at each position replace the
anchored match (if any) by the token and resume after the match, otherwise
emit the character.  All matches of both patterns have length at least 1,
so in the `some n` branch `(c :: rest).drop n = rest.drop (n - 1)`. -/

/-- Generic `re.sub(pat, token, ·)`, with explicit fuel (any fuel at least the
list length gives the same result, see `subAllGo_congr`); structural recursion
keeps the definition kernel-computable. -/
def subAllGo (matchAt : List Char → Option Nat) (token : List Char) :
    Nat → List Char → List Char
  | _, [] => []
  | 0, l => l
  | fuel + 1, c :: rest =>
    match matchAt (c :: rest) with
    | some n => token ++ subAllGo matchAt token fuel (rest.drop (n - 1))
    | none => c :: subAllGo matchAt token fuel rest

/-- Generic `re.sub(pat, token, ·)` for an anchored length-matcher. -/
def subAll (matchAt : List Char → Option Nat) (token : List Char) (l : List Char) :
    List Char :=
  subAllGo matchAt token l.length l

theorem subAllGo_congr (matchAt : List Char → Option Nat) (token : List Char) :
    ∀ fuel1 fuel2 l, l.length ≤ fuel1 → l.length ≤ fuel2 →
      subAllGo matchAt token fuel1 l = subAllGo matchAt token fuel2 l := by
  intro fuel1
  induction fuel1 with
  | zero =>
    intro fuel2 l h1 _
    have : l = [] := List.eq_nil_of_length_eq_zero (Nat.le_zero.mp h1)
    subst this
    cases fuel2 <;> rfl
  | succ f1 ih =>
    intro fuel2 l h1 h2
    cases l with
    | nil => cases fuel2 <;> rfl
    | cons c rest =>
      cases fuel2 with
      | zero => exact absurd h2 (by simp)
      | succ f2 =>
        simp only [subAllGo]
        simp only [List.length_cons] at h1 h2
        cases hm : matchAt (c :: rest) with
        | some n =>
          have hd : (rest.drop (n - 1)).length ≤ f1 := by
            simp only [List.length_drop]; omega
          have hd2 : (rest.drop (n - 1)).length ≤ f2 := by
            simp only [List.length_drop]; omega
          dsimp only
          rw [ih _ _ hd hd2]
        | none =>
          dsimp only
          rw [ih f2 rest (by omega) (by omega)]

/-- Unfolding equation for `subAll` on a cons cell. -/
theorem subAll_cons (matchAt : List Char → Option Nat) (token : List Char)
    (c : Char) (rest : List Char) :
    subAll matchAt token (c :: rest) =
      match matchAt (c :: rest) with
      | some n => token ++ subAll matchAt token (rest.drop (n - 1))
      | none => c :: subAll matchAt token rest := by
  show subAllGo matchAt token (rest.length + 1) (c :: rest) = _
  simp only [subAllGo]
  cases hm : matchAt (c :: rest) with
  | some n =>
    dsimp only
    rw [subAllGo_congr matchAt token rest.length (rest.drop (n - 1)).length
      (rest.drop (n - 1)) (by simp only [List.length_drop]; omega) (Nat.le_refl _)]
    rfl
  | none =>
    dsimp only
    rfl

@[simp]
theorem subAll_nil (matchAt : List Char → Option Nat) (token : List Char) :
    subAll matchAt token [] = [] := rfl

/-- `anonymize_text`: replace `EMAIL_RE` matches by `[email]`, then
`PHONE_RE` matches by `[phone]`. -/
def anonymize_text (text : String) : String :=
  String.mk (subAll matchPhoneAt "[phone]".data (subAll matchEmailAt "[email]".data text.data))

example : anonymize_text "mail a@b.co or 123456789" = "mail [email] or [phone]" := by decide
example : anonymize_text "a@b.cc@d.ee" = "[email]@d.ee" := by decide

/-! ## `call_openrouter_chat` (`app.py` line 51-85)

The HTTP transport is abstracted as a function from the attempt number
(starting at 1) to an outcome: either a network-level failure
(`requests.RequestException`) or a response with a status code, a body text,
and the result of parsing `resp.json()["choices"][0]["message"]["content"]`
(`none` models any parse failure).  `requests.Response.ok` is
`status_code < 400`. -/

inductive HttpOutcome where
  | netFailure
  | response (status : Nat) (body : String) (parsed : Option String)

/-- `requests.Response.ok`. -/
def respOk (status : Nat) : Bool := status < 400

/-- The transient status codes retried by `call_openrouter_chat`. -/
def RETRYABLE : List Nat := [408, 429, 500, 502, 503, 504]

/-- The retry loop of `call_openrouter_chat`, entered with `attempt = 1`. -/
def callLoop (t : Nat → HttpOutcome) (retry : Nat) (attempt : Nat) : String :=
  match t attempt with
  | .netFailure =>
    if _h : attempt ≤ retry then callLoop t retry (attempt + 1)
    else "Network error contacting the model."
  | .response status body parsed =>
    if respOk status = false then
      if _h : attempt ≤ retry ∧ status ∈ RETRYABLE then callLoop t retry (attempt + 1)
      else "API error (" ++ toString status ++ "): " ++ body
    else
      match parsed with
      | some content => content
      | none => "Unexpected response format."
termination_by retry + 1 - attempt
decreasing_by
  · omega
  · omega

/-- Attempt number at which the retry loop returns (for counting attempts). -/
def callLoopAttempts (t : Nat → HttpOutcome) (retry : Nat) (attempt : Nat) : Nat :=
  match t attempt with
  | .netFailure =>
    if _h : attempt ≤ retry then callLoopAttempts t retry (attempt + 1)
    else attempt
  | .response status _ _ =>
    if respOk status = false then
      if _h : attempt ≤ retry ∧ status ∈ RETRYABLE then callLoopAttempts t retry (attempt + 1)
      else attempt
    else attempt
termination_by retry + 1 - attempt
decreasing_by
  · omega
  · omega

/-- `call_openrouter_chat`, with the credential and transport explicit. -/
def call_openrouter_chat (apiKey : String) (t : Nat → HttpOutcome) (retry : Nat) : String :=
  if apiKey = "" then "Missing OPENROUTER_API_KEY."
  else callLoop t retry 1

/-- Total number of attempts `call_openrouter_chat` makes (0 when the
credential is missing and no HTTP call happens). -/
def callAttempts (apiKey : String) (t : Nat → HttpOutcome) (retry : Nat) : Nat :=
  if apiKey = "" then 0
  else callLoopAttempts t retry 1

/-! ## The main loop (`app.py` line 256-329) as a turn-step function

Session state (`st.session_state`) fields touched by a turn.  The sentiment
analyzer (VADER) and the question generator (an LLM call) are external
collaborators and enter `processTurn` as parameters: `lbl` is the label
computed from the utterance, `gen` maps the declared tech stack to the
generated question list.  The result is `none` when the turn raises an
uncaught exception (`qs[0]` on an empty list, `FIELD_ORDER[idx]` out of
range).  Assistant texts that the source only renders
(`st.chat_message(...).markdown(...)`) without appending to
`st.session_state.messages` are likewise not appended here. -/

/-! ## Spec-side shape predicates (from the claims' words)

These two predicates follow the specification text, not the source patterns;
they are compared with the source-derived matchers in the claims below. -/

/-- Spec: a domain label is alphanumeric/hyphen. -/
def isLabelChar (c : Char) : Bool := c.isAlpha || c.isDigit || c = '-'

/-- Split a list at every `'.'`. -/
def splitDots : List Char → List (List Char)
  | [] => [[]]
  | c :: rest =>
    let ps := splitDots rest
    if c = '.' then [] :: ps
    else
      match ps with
      | p :: tl => (c :: p) :: tl
      | [] => [[c]]

/-- Inverse of `splitDots`. -/
def joinDots : List (List Char) → List Char
  | [] => []
  | [p] => p
  | p :: ps => p ++ '.' :: joinDots ps

/-- Spec: a TLD is at least 2 letters. -/
def validTld (t : List Char) : Bool := 2 ≤ t.length && t.all Char.isAlpha

/-- Claim C4's notion of a valid `user@domain.tld`-shaped string: a nonempty
local part of local-part characters, `@`, one or more nonempty
alphanumeric/hyphen domain labels separated by dots, and a TLD of at least
2 letters. -/
def validEmailShaped (l : List Char) : Bool :=
  if (l.takeWhile isLocalChar).length = 0 then false
  else
    match l.drop (l.takeWhile isLocalChar).length with
    | c :: d =>
      if c = '@' then
        2 ≤ (splitDots d).length &&
          ((splitDots d).dropLast.all fun p => p.length ≠ 0 && p.all isLabelChar) &&
          validTld ((splitDots d).getLastD [])
      else false
    | [] => false

example : validEmailShaped "x@y.dd".data = true := by decide
example : validEmailShaped "user@mail.example.org".data = true := by decide
example : validEmailShaped "a@b..cc".data = false := by decide
example : validEmailShaped "a@b.c".data = false := by decide

/-- The core of a spec-side phone shape: a digit, then digit/hyphen/space
characters, ending in a digit, 9 characters in total at least. -/
def phoneCoreShaped : List Char → Bool
  | [] => false
  | c :: rest =>
    c.isDigit && decide (9 ≤ rest.length + 1) && (c :: rest).all isPhoneChar &&
      (match rest.getLast? with
       | some d => d.isDigit
       | none => false)

/-- Claim C6 (amended): a phone-shaped string is an optional `+`, then a
digit, at least 7 digit/hyphen/space characters, and a final digit (total
at least 9 characters after the optional `+`). -/
def validPhoneShaped (l : List Char) : Bool :=
  phoneCoreShaped (if l.head? = some '+' then l.tail else l)

example : validPhoneShaped "+123456789".data = true := by decide
example : validPhoneShaped "1-2-3-4-5".data = true := by decide
example : validPhoneShaped "12345678".data = false := by decide

structure Msg where
  role : String
  content : String
deriving DecidableEq, Repr

structure Collected where
  full_name : String
  desired_positions : String
  email : String
  phone : String
  years_experience : String
  location : String
  tech_stack : String
deriving DecidableEq, Repr

structure ChatState where
  messages : List Msg
  collected : Collected
  stage : String
  questions : List String
  q_index : Nat
  current_index : Nat
  sentiment_label : String
deriving DecidableEq, Repr

def REQUIRED_FIELDS : List String :=
  ["full_name", "desired_positions", "email", "phone", "years_experience",
   "location", "tech_stack"]

def FIELD_ORDER : List String := REQUIRED_FIELDS

def EXIT_KEYWORDS : List String :=
  ["bye", "exit", "end", "stop", "quit", "thank you", "thanks"]

/-- `c.get(key, "")` on the candidate record. -/
def fieldGet (c : Collected) (key : String) : String :=
  if key = "full_name" then c.full_name
  else if key = "desired_positions" then c.desired_positions
  else if key = "email" then c.email
  else if key = "phone" then c.phone
  else if key = "years_experience" then c.years_experience
  else if key = "location" then c.location
  else if key = "tech_stack" then c.tech_stack
  else ""

/-- `next_unfilled_after` (`app.py` line 95-99). -/
def next_unfilled_after (c : Collected) (start : Nat) : Option Nat :=
  ((List.range FIELD_ORDER.length).drop start).find?
    (fun idx => pyStrip (fieldGet c (FIELD_ORDER.getD idx "")) = "")

/-- `field_prompt` (`app.py` line 101-111). -/
def field_prompt (key : String) : String :=
  if key = "full_name" then "What's your full name?"
  else if key = "desired_positions" then "Which position(s) are you targeting?"
  else if key = "email" then "Please share your email address."
  else if key = "phone" then "What's the best phone number to reach you?"
  else if key = "years_experience" then "How many years of experience do you have?"
  else if key = "location" then "What's your current location (city, country)?"
  else if key = "tech_stack" then "List your tech stack (languages, frameworks, databases, tools)."
  else ""

/-- `sentiment_prefix` (`app.py` line 173-178); the source name ends in a
word Lean reserves for notation commands, hence the rename. -/
def sentimentLead (lbl : String) : String :=
  if lbl = "positive" then "Great —"
  else if lbl = "neutral" then "Thanks —"
  else if lbl = "negative" then "Thanks for sharing —"
  else "Thanks —"

/-- The exit-keyword test (`app.py` line 272):
`any(kw in user_input.lower() for kw in EXIT_KEYWORDS)`. -/
def exitHit (userInput : String) : Bool :=
  EXIT_KEYWORDS.any (fun kw => occursIn kw.data (pyLower userInput).data)

def EXIT_MESSAGE : String :=
  "Thank you for your time! Your information has been noted, and our team will review it shortly. Best of luck!"

/-- The field-extraction dispatch of the `collecting_info` branch
(`app.py` line 282-302); returns the updated candidate record. -/
def applyFieldExtraction (c : Collected) (key : String) (text : String) : Collected :=
  if key = "full_name" then
    let name := if extract_name text = "" then text else extract_name text
    let c1 := if name = "" then c else { c with full_name := name }
    let pos := extract_position text
    if pos ≠ "" ∧ c1.desired_positions = "" then { c1 with desired_positions := pos } else c1
  else if key = "desired_positions" then
    let pos := if extract_position text = "" then text else extract_position text
    if pos = "" then c else { c with desired_positions := pos }
  else if key = "email" then
    let email := extract_email text
    if email = "" then c else { c with email := email }
  else if key = "phone" then
    let phone := extract_phone text
    if phone = "" then c else { c with phone := phone }
  else if key = "years_experience" then
    let yoe := if extract_yoe text = "" then text else extract_yoe text
    if yoe = "" then c else { c with years_experience := yoe }
  else if key = "location" then
    if text = "" then c else { c with location := text }
  else if key = "tech_stack" then
    if text = "" then c else { c with tech_stack := text }
  else c

/-- One user turn of the main loop (`app.py` line 256-329). -/
def processTurn (st : ChatState) (userInput : String) (lbl : String)
    (gen : String → List String) : Option ChatState :=
  let st := { st with
    sentiment_label := lbl,
    messages := st.messages ++ [⟨"user", userInput⟩] }
  if exitHit userInput then
    some { st with
      stage := "finished",
      messages := st.messages ++ [⟨"assistant", EXIT_MESSAGE⟩] }
  else if st.stage = "collecting_info" then
    match FIELD_ORDER.get? st.current_index with
    | none => none
    | some key =>
      let text := pyStrip userInput
      let c := applyFieldExtraction st.collected key text
      if fieldGet c key = "" then
        some { st with collected := c }
      else
        match next_unfilled_after c (st.current_index + 1) with
        | some nxt =>
          some { st with
            collected := c,
            current_index := nxt,
            messages := st.messages ++
              [⟨"assistant", sentimentLead lbl ++ " " ++ field_prompt (FIELD_ORDER.getD nxt "")⟩] }
        | none =>
          let qs := gen c.tech_stack
          match qs.get? 0 with
          | some q0 =>
            some { st with
              collected := c,
              stage := "asking_questions",
              questions := qs,
              q_index := 0,
              messages := st.messages ++ [⟨"assistant", q0⟩] }
          | none => none
  else if st.stage = "asking_questions" then
    let qi := st.q_index + 1
    if qi < st.questions.length then
      some { st with
        q_index := qi,
        messages := st.messages ++ [⟨"assistant", st.questions.getD qi ""⟩] }
    else
      some { st with q_index := qi, stage := "finished" }
  else
    some st

/-- The session state created by the `STATE INIT` block (`app.py` line 228-248). -/
def initState : ChatState where
  messages :=
    [⟨"system", "SYSTEM_PROMPT"⟩,
     ⟨"assistant", "Hello! I'm the Hiring Assistant for TalentScout. I'll gather your details and ask a few technical questions.\n\nTo start, what's your full name and which position(s) are you targeting?"⟩]
  collected := ⟨"", "", "", "", "", "", ""⟩
  stage := "collecting_info"
  questions := []
  q_index := 0
  current_index := 0
  sentiment_label := "neutral"

example :
    (processTurn initState "My name is Jane Doe, I'm applying for Backend Engineer" "neutral"
        (fun _ => [])).map (fun s => (s.stage, s.collected.full_name)) =
      some ("finished", "") := by decide

example :
    (processTurn initState "My name is Jane Doe, I'm applying for Data Scientist" "neutral"
        (fun _ => [])).map
        (fun s => (s.stage, s.collected.full_name, s.collected.desired_positions,
                   s.current_index)) =
      some ("collecting_info", "Jane Doe", "Data Scientist", 2) := by decide

example :
    processTurn
      { initState with
          collected := ⟨"Jane Doe", "Backer", "a@b.cc", "123456789", "3 years", "Rome", ""⟩,
          current_index := 6 }
      "Python and SQL" "neutral" (fun _ => []) = none := by decide

/-! ## List toolkit

General lemmas about `takeWhile`, `drop` and suffixes used throughout the
matcher proofs. -/

theorem takeWhile_all_append (p : Char → Bool) (u v : List Char)
    (hu : ∀ c ∈ u, p c = true) : (u ++ v).takeWhile p = u ++ v.takeWhile p := by
  induction u with
  | nil => rfl
  | cons c u ih =>
    simp only [List.cons_append, List.takeWhile_cons, hu c (List.mem_cons_self c u), if_pos]
    rw [ih fun d hd => hu d (List.mem_cons_of_mem c hd)]

/-- Stopping the scan at a known non-`p` character: the part of `takeWhile`
before it only depends on the prefix. -/
theorem takeWhile_append_stop (p : Char → Bool) (a : List Char) (x : Char)
    (b : List Char) (hx : p x = false) :
    (a ++ x :: b).takeWhile p = a.takeWhile p := by
  induction a with
  | nil => simp [List.takeWhile_cons, hx]
  | cons c a ih =>
    simp only [List.cons_append, List.takeWhile_cons]
    cases hc : p c with
    | true => simp only [if_pos rfl]; rw [ih]
    | false => simp

/-- `takeWhile` of a longer list extends `takeWhile` of the prefix. -/
theorem takeWhile_append_extend (p : Char → Bool) (u v : List Char) :
    ∃ w, (u ++ v).takeWhile p = u.takeWhile p ++ w := by
  induction u with
  | nil => exact ⟨v.takeWhile p, rfl⟩
  | cons c u ih =>
    simp only [List.cons_append, List.takeWhile_cons]
    cases hc : p c with
    | true =>
      obtain ⟨w, hw⟩ := ih
      exact ⟨w, by simp [hw]⟩
    | false => exact ⟨[], rfl⟩

theorem takeWhile_length_mono (p : Char → Bool) (u v : List Char) :
    (u.takeWhile p).length ≤ ((u ++ v).takeWhile p).length := by
  obtain ⟨w, hw⟩ := takeWhile_append_extend p u v
  simp [hw]

/-- Decompose a list into its `takeWhile` part and the rest. -/
theorem takeWhile_append_drop (p : Char → Bool) (l : List Char) :
    l.takeWhile p ++ l.drop (l.takeWhile p).length = l := by
  induction l with
  | nil => rfl
  | cons c l ih =>
    simp only [List.takeWhile_cons]
    cases hc : p c with
    | true => simpa using ih
    | false => simp

theorem take_succ_get? (l : List Char) (n : Nat) (x : Char) (h : l.get? n = some x) :
    l.take (n + 1) = l.take n ++ [x] := by
  induction l generalizing n with
  | nil => simp at h
  | cons c l ih =>
    cases n with
    | zero => simp_all
    | succ n =>
      simp only [List.get?_cons_succ] at h
      simp [List.take_succ_cons, ih n h]

/-- `s` is a suffix of `l`. -/
def suffOf (s l : List Char) : Prop := ∃ u, u ++ s = l

theorem suffOf_refl (l : List Char) : suffOf l l := ⟨[], rfl⟩

theorem suffOf_cons_elim {s : List Char} {c : Char} {x : List Char}
    (h : suffOf s (c :: x)) : s = c :: x ∨ suffOf s x := by
  obtain ⟨u, hu⟩ := h
  cases u with
  | nil => exact Or.inl (by simp at hu; exact hu)
  | cons d u => exact Or.inr ⟨u, by simpa using congrArg List.tail hu⟩

theorem suffOf_of_suffOf_tail {s x : List Char} {c : Char} (h : suffOf s x) :
    suffOf s (c :: x) := by
  obtain ⟨u, hu⟩ := h
  exact ⟨c :: u, by simp [hu]⟩

theorem suffOf_trans {a b c : List Char} (h1 : suffOf a b) (h2 : suffOf b c) :
    suffOf a c := by
  obtain ⟨u, hu⟩ := h1
  obtain ⟨v, hv⟩ := h2
  exact ⟨v ++ u, by rw [List.append_assoc, hu, hv]⟩

theorem suffOf_drop (l : List Char) (n : Nat) : suffOf (l.drop n) l :=
  ⟨l.take n, List.take_append_drop n l⟩

theorem suffOf_append_elim {s u v : List Char} (h : suffOf s (u ++ v)) :
    (∃ w, suffOf w u ∧ w ≠ [] ∧ s = w ++ v) ∨ suffOf s v := by
  induction u with
  | nil => exact Or.inr (by simpa using h)
  | cons c u ih =>
    rcases suffOf_cons_elim (by simpa using h) with heq | htail
    · exact Or.inl ⟨c :: u, suffOf_refl _, by simp, by simpa using heq⟩
    · rcases ih htail with ⟨w, hw, hne, hs⟩ | hv
      · exact Or.inl ⟨w, suffOf_of_suffOf_tail hw, hne, hs⟩
      · exact Or.inr hv

/-- Exit-keyword turns: the unique behaviour of the `app.py` line 272-275
branch, shared by several claims below. -/
theorem processTurn_exit (st : ChatState) (input lbl : String)
    (gen : String → List String) (h : exitHit input = true) :
    processTurn st input lbl gen =
      some { st with
        sentiment_label := lbl,
        stage := "finished",
        messages := st.messages ++ [⟨"user", input⟩, ⟨"assistant", EXIT_MESSAGE⟩] } := by
  simp only [processTurn, h, if_pos]
  simp [List.append_assoc]

theorem headMatch_iff (s l : List Char) :
    headMatch s l = true ↔ ∃ v, s ++ v = l := by
  induction s generalizing l with
  | nil => simp [headMatch]
  | cons c s ih =>
    cases l with
    | nil => simp [headMatch]
    | cons d l =>
      simp only [headMatch, Bool.and_eq_true, decide_eq_true_eq, ih]
      constructor
      · rintro ⟨rfl, v, rfl⟩; exact ⟨v, rfl⟩
      · rintro ⟨v, hv⟩
        simp only [List.cons_append, List.cons.injEq] at hv
        exact ⟨hv.1, v, hv.2⟩

theorem occursIn_iff (s l : List Char) :
    occursIn s l = true ↔ ∃ u v, u ++ (s ++ v) = l := by
  induction l with
  | nil =>
    simp only [occursIn, List.isEmpty_iff]
    constructor
    · rintro rfl; exact ⟨[], [], rfl⟩
    · rintro ⟨u, v, huv⟩
      rcases List.append_eq_nil.mp huv with ⟨rfl, h2⟩
      exact (List.append_eq_nil.mp h2).1
  | cons c l ih =>
    simp only [occursIn, Bool.or_eq_true, headMatch_iff, ih]
    constructor
    · rintro (⟨v, hv⟩ | ⟨u, v, huv⟩)
      · exact ⟨[], v, by simpa using hv⟩
      · exact ⟨c :: u, v, by simp [huv]⟩
    · rintro ⟨u, v, huv⟩
      cases u with
      | nil => exact Or.inl ⟨v, by simpa using huv⟩
      | cons d u =>
        simp only [List.cons_append, List.cons.injEq] at huv
        exact Or.inr ⟨u, v, huv.2⟩

/-! ## Claims -/

/-- C1: when the `collecting_info` turn fills the last required field and the
question generator returns an empty list, the turn does not transition
gracefully to `finished` with a fallback message: `processTurn` evaluates the
source's `qs[0]` on an empty list, an uncaught `IndexError` (modelled as
`none`).  Concrete failing input: every field but `tech_stack` already
filled, the turn supplies the tech stack, the generator returns `[]`. -/
theorem c1_empty_questions_faults :
    processTurn
      { initState with
          collected :=
            ⟨"Jane Doe", "Engineer", "a@b.cc", "123456789", "3 years", "Rome", ""⟩,
          current_index := 6 }
      "Python and SQL" "neutral" (fun _ => []) = none := by decide

/-- C7: any utterance whose lowercased text contains an exit keyword as a
substring, processed at any stage, moves the state machine to `finished` and
emits (appends) the fixed, non-sentiment-prefixed exit message, leaving the
rest of the state machine untouched; in particular any utterance containing
"thanks" case-insensitively hits the exit-keyword test. -/
theorem c7_exit_keywords :
    (∀ (st : ChatState) (input lbl : String) (gen : String → List String),
        exitHit input = true →
        processTurn st input lbl gen =
          some { st with
            sentiment_label := lbl,
            stage := "finished",
            messages := st.messages ++ [⟨"user", input⟩, ⟨"assistant", EXIT_MESSAGE⟩] }) ∧
    (∀ input : String,
        occursIn "thanks".data (pyLower input).data = true → exitHit input = true) := by
  constructor
  · exact fun st input lbl gen h => processTurn_exit st input lbl gen h
  · intro input h
    exact List.any_eq_true.mpr ⟨"thanks", by decide, h⟩

/-- C7 witness: a concrete exit turn (mid-collection, positive sentiment)
and a concrete "thanks" utterance. -/
theorem c7_exit_keywords_witness :
    processTurn initState "ok thanks!" "positive" (fun _ => []) =
      some { initState with
        sentiment_label := "positive",
        stage := "finished",
        messages := initState.messages ++
          [⟨"user", "ok thanks!"⟩, ⟨"assistant", EXIT_MESSAGE⟩] } ∧
    exitHit "Thanks a lot" = true :=
  ⟨c7_exit_keywords.1 initState "ok thanks!" "positive" (fun _ => []) (by decide),
   c7_exit_keywords.2 "Thanks a lot" (by decide)⟩

/-- C9 counterexample: the claimed scenario input itself contains the exit
keyword "end" (inside "Backend"), so the turn takes the exit branch: the
stage becomes `finished`, and neither `full_name` nor `desired_positions`
is set and the field index does not advance — not the claimed extraction. -/
theorem c9_counterexample :
    exitHit "My name is Jane Doe, I'm applying for Backend Engineer" = true ∧
    (processTurn initState "My name is Jane Doe, I'm applying for Backend Engineer"
        "neutral" (fun _ => [])).map
        (fun s => (s.stage, s.collected.full_name, s.collected.desired_positions,
                   s.current_index)) =
      some ("finished", "", "", 0) := by decide

/-- C9 (amended): the scenario holds once the desired position does not
contain an exit keyword (the original "Backend Engineer" contains "end"):
at the `full_name` step, the input
"My name is Jane Doe, I'm applying for Data Scientist" sets
`full_name = "Jane Doe"`, opportunistically sets
`desired_positions = "Data Scientist"`, and the recomputed next unfilled
field advances the index two fields ahead, to index 2 = `email`. -/
theorem c9_amended :
    (processTurn initState "My name is Jane Doe, I'm applying for Data Scientist"
        "neutral" (fun _ => [])).map
        (fun s => (s.stage, s.collected.full_name, s.collected.desired_positions,
                   s.current_index)) =
      some ("collecting_info", "Jane Doe", "Data Scientist", 2) ∧
    FIELD_ORDER.getD 2 "" = "email" := by decide

/-- C10 counterexample: on an exit-keyword turn it is not true that only the
stage and the message history change: the sentiment label (part of the
session state, recomputed from the utterance at the start of every turn)
also changes. -/
theorem c10_counterexample :
    exitHit "bye" = true ∧
    (processTurn initState "bye" "positive" (fun _ => [])).map
        (fun s => (s.stage, s.sentiment_label)) = some ("finished", "positive") ∧
    initState.sentiment_label = "neutral" := by decide

/-- C10 (amended): on an exit-keyword turn, only the stage (set to
`finished`), the message history (user utterance and exit message appended)
and the sentiment label (recomputed every turn before the exit test) change;
the candidate record, `current_index`, the generated question list and
`q_index` are unchanged — in particular an in-flight answer contained in the
exit utterance is discarded, not extracted into a field. -/
theorem c10_exit_frame (st : ChatState) (input lbl : String)
    (gen : String → List String) (h : exitHit input = true) :
    ∃ st', processTurn st input lbl gen = some st' ∧
      st'.collected = st.collected ∧
      st'.current_index = st.current_index ∧
      st'.questions = st.questions ∧
      st'.q_index = st.q_index ∧
      st'.stage = "finished" ∧
      st'.sentiment_label = lbl ∧
      st'.messages = st.messages ++ [⟨"user", input⟩, ⟨"assistant", EXIT_MESSAGE⟩] := by
  refine ⟨_, processTurn_exit st input lbl gen h, rfl, rfl, rfl, rfl, rfl, rfl, rfl⟩

/-- C10 witness: a turn at the `email` step whose utterance contains both an
extractable email address and an exit keyword: the record stays untouched
(the in-flight answer is discarded) and the stage finishes. -/
theorem c10_exit_frame_witness :
    exitHit "my email is jane@x.com, bye" = true ∧
    (processTurn { initState with current_index := 2 }
        "my email is jane@x.com, bye" "neutral" (fun _ => [])).map
        (fun s => (s.collected.email, s.current_index, s.stage)) =
      some ("", 2, "finished") := by
  refine ⟨by decide, ?_⟩
  obtain ⟨st', heq, hc, hci, -, -, hstage, -, -⟩ :=
    c10_exit_frame { initState with current_index := 2 }
      "my email is jane@x.com, bye" "neutral" (fun _ => []) (by decide)
  rw [heq]
  simp [hc, hci, hstage, initState]

/-! ### Unfolding lemmas for the retry loop -/

theorem callLoop_net_retry {t : Nat → HttpOutcome} {retry attempt : Nat}
    (h : t attempt = .netFailure) (hle : attempt ≤ retry) :
    callLoop t retry attempt = callLoop t retry (attempt + 1) := by
  conv_lhs => rw [callLoop.eq_def]
  rw [h, dif_pos hle]

theorem callLoop_net_stop {t : Nat → HttpOutcome} {retry attempt : Nat}
    (h : t attempt = .netFailure) (hgt : ¬ attempt ≤ retry) :
    callLoop t retry attempt = "Network error contacting the model." := by
  conv_lhs => rw [callLoop.eq_def]
  rw [h, dif_neg hgt]

theorem callLoop_status_retry {t : Nat → HttpOutcome} {retry attempt s : Nat}
    {b : String} {p : Option String}
    (h : t attempt = .response s b p) (hok : respOk s = false)
    (hc : attempt ≤ retry ∧ s ∈ RETRYABLE) :
    callLoop t retry attempt = callLoop t retry (attempt + 1) := by
  conv_lhs => rw [callLoop.eq_def]
  rw [h]
  dsimp only
  rw [if_pos hok, dif_pos hc]

theorem callLoop_status_stop {t : Nat → HttpOutcome} {retry attempt s : Nat}
    {b : String} {p : Option String}
    (h : t attempt = .response s b p) (hok : respOk s = false)
    (hc : ¬ (attempt ≤ retry ∧ s ∈ RETRYABLE)) :
    callLoop t retry attempt = "API error (" ++ toString s ++ "): " ++ b := by
  conv_lhs => rw [callLoop.eq_def]
  rw [h]
  dsimp only
  rw [if_pos hok, dif_neg hc]

theorem callLoop_success {t : Nat → HttpOutcome} {retry attempt s : Nat}
    {b content : String}
    (h : t attempt = .response s b (some content)) (hok : respOk s = true) :
    callLoop t retry attempt = content := by
  conv_lhs => rw [callLoop.eq_def]
  rw [h]
  dsimp only
  rw [if_neg (by simp [hok])]

theorem callLoop_badparse {t : Nat → HttpOutcome} {retry attempt s : Nat}
    {b : String}
    (h : t attempt = .response s b none) (hok : respOk s = true) :
    callLoop t retry attempt = "Unexpected response format." := by
  conv_lhs => rw [callLoop.eq_def]
  rw [h]
  dsimp only
  rw [if_neg (by simp [hok])]

theorem callLoopAttempts_net_retry {t : Nat → HttpOutcome} {retry attempt : Nat}
    (h : t attempt = .netFailure) (hle : attempt ≤ retry) :
    callLoopAttempts t retry attempt = callLoopAttempts t retry (attempt + 1) := by
  conv_lhs => rw [callLoopAttempts.eq_def]
  rw [h, dif_pos hle]

theorem callLoopAttempts_status_retry {t : Nat → HttpOutcome} {retry attempt s : Nat}
    {b : String} {p : Option String}
    (h : t attempt = .response s b p) (hok : respOk s = false)
    (hc : attempt ≤ retry ∧ s ∈ RETRYABLE) :
    callLoopAttempts t retry attempt = callLoopAttempts t retry (attempt + 1) := by
  conv_lhs => rw [callLoopAttempts.eq_def]
  rw [h]
  dsimp only
  rw [if_pos hok, dif_pos hc]

theorem callLoopAttempts_status_stop {t : Nat → HttpOutcome} {retry attempt s : Nat}
    {b : String} {p : Option String}
    (h : t attempt = .response s b p) (hok : respOk s = false)
    (hc : ¬ (attempt ≤ retry ∧ s ∈ RETRYABLE)) :
    callLoopAttempts t retry attempt = attempt := by
  conv_lhs => rw [callLoopAttempts.eq_def]
  rw [h]
  dsimp only
  rw [if_pos hok, dif_neg hc]

theorem callLoopAttempts_done {t : Nat → HttpOutcome} {retry attempt s : Nat}
    {b : String} {p : Option String}
    (h : t attempt = .response s b p) (hok : respOk s = true) :
    callLoopAttempts t retry attempt = attempt := by
  conv_lhs => rw [callLoopAttempts.eq_def]
  rw [h]
  dsimp only
  rw [if_neg (by simp [hok])]

/-- C2: with `retry = 2` and a transport that answers HTTP 503 on the first
two attempts and HTTP 200 with a well-formed body on the third, the client
returns the parsed `choices[0].message.content` string and makes exactly
`retry + 1 = 3` attempts. -/
theorem c2_retry_boundary (key : String) (t : Nat → HttpOutcome)
    (b1 b2 body content : String) (p1 p2 : Option String)
    (hkey : key ≠ "")
    (h1 : t 1 = .response 503 b1 p1)
    (h2 : t 2 = .response 503 b2 p2)
    (h3 : t 3 = .response 200 body (some content)) :
    call_openrouter_chat key t 2 = content ∧ callAttempts key t 2 = 3 := by
  constructor
  · rw [call_openrouter_chat, if_neg hkey]
    rw [callLoop_status_retry h1 (by decide) ⟨by omega, by decide⟩]
    rw [callLoop_status_retry h2 (by decide) ⟨by omega, by decide⟩]
    exact callLoop_success h3 (by decide)
  · rw [callAttempts, if_neg hkey]
    rw [callLoopAttempts_status_retry h1 (by decide) ⟨by omega, by decide⟩]
    rw [callLoopAttempts_status_retry h2 (by decide) ⟨by omega, by decide⟩]
    exact callLoopAttempts_done h3 (by decide)

/-- A concrete 503-503-200 transport. -/
def mockTransport503 : Nat → HttpOutcome := fun n =>
  if n ≤ 2 then .response 503 "busy" none else .response 200 "ok" (some "Hello!")

/-- C2 witness: the concrete 503-503-200 transport with `retry = 2`. -/
theorem c2_retry_boundary_witness :
    call_openrouter_chat "sk-key" mockTransport503 2 = "Hello!" ∧
    callAttempts "sk-key" mockTransport503 2 = 3 :=
  c2_retry_boundary "sk-key" mockTransport503 "busy" "busy" "ok" "Hello!" none none
    (by decide) rfl rfl rfl

/-- All attempts up to `retry + 1` failing at network level exhausts the
retries and yields the fixed network-error message. -/
theorem callLoop_all_net (t : Nat → HttpOutcome) (retry : Nat) :
    ∀ fuel attempt, retry + 1 - attempt = fuel → 1 ≤ attempt → attempt ≤ retry + 1 →
      (∀ a, attempt ≤ a → a ≤ retry + 1 → t a = .netFailure) →
      callLoop t retry attempt = "Network error contacting the model." := by
  intro fuel
  induction fuel with
  | zero =>
    intro attempt hf h1 hub hall
    have hge : ¬ attempt ≤ retry := by omega
    exact callLoop_net_stop (hall attempt (Nat.le_refl _) hub) hge
  | succ f ih =>
    intro attempt hf h1 hub hall
    have hle : attempt ≤ retry := by omega
    rw [callLoop_net_retry (hall attempt (Nat.le_refl _) (by omega)) hle]
    exact ih (attempt + 1) (by omega) (by omega) (by omega)
      (fun a ha hb => hall a (by omega) hb)

/-- C3: the completion client is total and degrades every failure mode to a
string: (i) with no credential it returns the fixed missing-credential
message whatever the transport is (no HTTP call is made); (ii) if every
attempt up to `retry + 1` fails at network level it returns the fixed
network-error message; (iii) on a first response with a non-retryable error
status it returns immediately (exactly 1 attempt) with a string embedding
the status code and the response body; (iv) on a first success whose body
does not parse it returns the fixed format-error message (1 attempt). -/
theorem c3_client_total :
    (∀ (t : Nat → HttpOutcome) (retry : Nat),
        call_openrouter_chat "" t retry = "Missing OPENROUTER_API_KEY.") ∧
    (∀ (key : String) (t : Nat → HttpOutcome) (retry : Nat), key ≠ "" →
        (∀ a, 1 ≤ a → a ≤ retry + 1 → t a = .netFailure) →
        call_openrouter_chat key t retry = "Network error contacting the model.") ∧
    (∀ (key : String) (t : Nat → HttpOutcome) (retry s : Nat) (b : String)
        (p : Option String), key ≠ "" →
        t 1 = .response s b p → respOk s = false → s ∉ RETRYABLE →
        call_openrouter_chat key t retry = "API error (" ++ toString s ++ "): " ++ b ∧
          callAttempts key t retry = 1) ∧
    (∀ (key : String) (t : Nat → HttpOutcome) (retry s : Nat) (b : String),
        key ≠ "" →
        t 1 = .response s b none → respOk s = true →
        call_openrouter_chat key t retry = "Unexpected response format." ∧
          callAttempts key t retry = 1) := by
  refine ⟨fun t retry => by rw [call_openrouter_chat, if_pos rfl], ?_, ?_, ?_⟩
  · intro key t retry hkey hall
    rw [call_openrouter_chat, if_neg hkey]
    exact callLoop_all_net t retry (retry + 1 - 1) 1 rfl (Nat.le_refl _) (by omega) hall
  · intro key t retry s b p hkey h1 hok hnr
    constructor
    · rw [call_openrouter_chat, if_neg hkey]
      exact callLoop_status_stop h1 hok (fun hc => hnr hc.2)
    · rw [callAttempts, if_neg hkey]
      exact callLoopAttempts_status_stop h1 hok (fun hc => hnr hc.2)
  · intro key t retry s b hkey h1 hok
    constructor
    · rw [call_openrouter_chat, if_neg hkey]
      exact callLoop_badparse h1 hok
    · rw [callAttempts, if_neg hkey]
      exact callLoopAttempts_done h1 hok

/-- A transport that always fails at network level. -/
def mockTransportNet : Nat → HttpOutcome := fun _ => .netFailure

/-- A transport that always answers HTTP 404. -/
def mockTransport404 : Nat → HttpOutcome := fun _ => .response 404 "not found" none

/-- A transport that answers HTTP 200 with an unparseable body. -/
def mockTransportBad : Nat → HttpOutcome := fun _ => .response 200 "<html>" none

/-- C3 witness: each failure mode of the client at a concrete transport. -/
theorem c3_client_total_witness :
    call_openrouter_chat "" mockTransport503 2 = "Missing OPENROUTER_API_KEY." ∧
    call_openrouter_chat "sk-key" mockTransportNet 2 = "Network error contacting the model." ∧
    (call_openrouter_chat "sk-key" mockTransport404 2 = "API error (404): not found" ∧
      callAttempts "sk-key" mockTransport404 2 = 1) ∧
    (call_openrouter_chat "sk-key" mockTransportBad 2 = "Unexpected response format." ∧
      callAttempts "sk-key" mockTransportBad 2 = 1) :=
  ⟨c3_client_total.1 mockTransport503 2,
   c3_client_total.2.1 "sk-key" mockTransportNet 2 (by decide) (fun a _ _ => rfl),
   c3_client_total.2.2.1 "sk-key" mockTransport404 2 404 "not found" none (by decide)
     rfl (by decide) (by decide),
   c3_client_total.2.2.2 "sk-key" mockTransportBad 2 200 "<html>" (by decide) rfl (by decide)⟩

/-! ### Scanner characterizations (for C4 and C6) -/

theorem scanSearch_some {f : List Char → Option Nat} {l m : List Char}
    (h : scanSearch f l = some m) :
    ∃ s n, suffOf s l ∧ f s = some n ∧ m = s.take n := by
  induction l with
  | nil => simp [scanSearch] at h
  | cons c rest ih =>
    rw [scanSearch] at h
    cases hf : f (c :: rest) with
    | some n =>
      rw [hf] at h
      dsimp only at h
      exact ⟨c :: rest, n, suffOf_refl _, hf, by simpa using h.symm⟩
    | none =>
      rw [hf] at h
      dsimp only at h
      obtain ⟨s, n, hs, hfs, hm⟩ := ih h
      exact ⟨s, n, suffOf_of_suffOf_tail hs, hfs, hm⟩

theorem scanSearch_ne_none {f : List Char → Option Nat} {l s : List Char} {n : Nat}
    (hs : suffOf s l) (hn : f s = some n) (hne : s ≠ []) :
    scanSearch f l ≠ none := by
  induction l with
  | nil =>
    obtain ⟨u, hu⟩ := hs
    exact absurd (List.append_eq_nil.mp hu).2 hne
  | cons c rest ih =>
    rw [scanSearch]
    cases hf : f (c :: rest) with
    | some m => simp
    | none =>
      dsimp only
      rcases suffOf_cons_elim hs with heq | htail
      · rw [heq] at hn; rw [hn] at hf; cases hf
      · exact ih htail

/-! ### `splitDots` / `joinDots` -/

theorem splitDots_ne_nil (l : List Char) : splitDots l ≠ [] := by
  cases l with
  | nil => simp [splitDots]
  | cons c rest =>
    rw [splitDots]
    by_cases hc : c = '.'
    · simp [hc]
    · rw [if_neg hc]
      cases splitDots rest <;> simp

theorem joinDots_splitDots (l : List Char) : joinDots (splitDots l) = l := by
  induction l with
  | nil => rfl
  | cons c rest ih =>
    rw [splitDots]
    by_cases hc : c = '.'
    · subst hc
      rw [if_pos rfl]
      have hne := splitDots_ne_nil rest
      cases hs : splitDots rest with
      | nil => exact absurd hs hne
      | cons p ps =>
        rw [hs] at ih
        simpa [joinDots] using ih
    · rw [if_neg hc]
      cases hs : splitDots rest with
      | nil => exact absurd hs (splitDots_ne_nil rest)
      | cons p ps =>
        rw [hs] at ih
        cases ps with
        | nil => simpa [joinDots] using ih
        | cons q qs => simpa [joinDots] using ih

theorem joinDots_append_last (ps : List (List Char)) (t : List Char) (h : ps ≠ []) :
    joinDots (ps ++ [t]) = joinDots ps ++ '.' :: t := by
  induction ps with
  | nil => exact absurd rfl h
  | cons p ps ih =>
    cases ps with
    | nil => simp [joinDots]
    | cons q qs =>
      have h2 := ih (by simp)
      simp only [List.cons_append] at h2 ⊢
      simp only [joinDots] at h2 ⊢
      rw [h2]
      simp

theorem mem_joinDots {c : Char} {ps : List (List Char)} (h : c ∈ joinDots ps) :
    c = '.' ∨ ∃ p ∈ ps, c ∈ p := by
  induction ps with
  | nil => simp [joinDots] at h
  | cons p ps ih =>
    cases ps with
    | nil =>
      simp only [joinDots] at h
      exact Or.inr ⟨p, by simp, h⟩
    | cons q qs =>
      simp only [joinDots, List.mem_append, List.mem_cons] at h
      rcases h with hp | rfl | hrest
      · exact Or.inr ⟨p, by simp, hp⟩
      · exact Or.inl rfl
      · rcases ih hrest with hdot | ⟨r, hr, hcr⟩
        · exact Or.inl hdot
        · exact Or.inr ⟨r, by simp [hr], hcr⟩

/-! ### Email matcher characterizations -/

theorem matchDotTld_some {l : List Char} {t : Nat} (h : matchDotTld l = some t) :
    ∃ tl, l = '.' :: tl ∧ 2 ≤ (tl.takeWhile Char.isAlpha).length ∧
      t = 1 + (tl.takeWhile Char.isAlpha).length := by
  cases l with
  | nil => simp [matchDotTld] at h
  | cons c tl =>
    rw [matchDotTld] at h
    dsimp only at h
    by_cases hc : c = '.'
    · subst hc
      rw [if_pos rfl] at h
      by_cases hlen : 2 ≤ (tl.takeWhile Char.isAlpha).length
      · rw [if_pos hlen] at h
        exact ⟨tl, rfl, hlen, (Option.some.injEq _ _ ▸ h).symm⟩
      · rw [if_neg hlen] at h; cases h
    · rw [if_neg hc] at h; cases h

theorem matchDotTld_of_valid {tl : List Char}
    (h : 2 ≤ (tl.takeWhile Char.isAlpha).length) :
    matchDotTld ('.' :: tl) = some (1 + (tl.takeWhile Char.isAlpha).length) := by
  rw [matchDotTld]
  dsimp only
  rw [if_pos rfl, if_pos h]

theorem domainBT_some {l : List Char} {k m : Nat} (h : domainBT l k = some m) :
    ∃ j t, 1 ≤ j ∧ j ≤ k ∧ matchDotTld (l.drop j) = some t ∧ m = j + t := by
  induction k with
  | zero => simp [domainBT] at h
  | succ k ih =>
    rw [domainBT] at h
    cases hm : matchDotTld (l.drop (k + 1)) with
    | some t =>
      rw [hm] at h
      dsimp only at h
      exact ⟨k + 1, t, by omega, Nat.le_refl _, hm, by simpa using h.symm⟩
    | none =>
      rw [hm] at h
      dsimp only at h
      obtain ⟨j, t, h1, h2, h3, h4⟩ := ih h
      exact ⟨j, t, h1, by omega, h3, h4⟩

theorem domainBT_ne_none {l : List Char} {k j : Nat}
    (h1 : 1 ≤ j) (h2 : j ≤ k) (h3 : matchDotTld (l.drop j) ≠ none) :
    domainBT l k ≠ none := by
  induction k with
  | zero => omega
  | succ k ih =>
    rw [domainBT]
    cases hm : matchDotTld (l.drop (k + 1)) with
    | some t => simp
    | none =>
      dsimp only
      rcases Nat.lt_or_ge j (k + 1) with hlt | hge
      · exact ih (by omega)
      · have : j = k + 1 := by omega
        subst this
        exact absurd hm h3

theorem matchEmailAt_some {l : List Char} {n : Nat} (h : matchEmailAt l = some n) :
    ∃ a2 d, l = l.takeWhile isLocalChar ++ '@' :: a2 ∧
      (l.takeWhile isLocalChar).length ≠ 0 ∧
      domainBT a2 (a2.takeWhile isDomainChar).length = some d ∧
      n = (l.takeWhile isLocalChar).length + 1 + d := by
  rw [matchEmailAt] at h
  by_cases hlp : (l.takeWhile isLocalChar).length = 0
  · rw [if_pos hlp] at h; cases h
  · rw [if_neg hlp] at h
    cases hd : l.drop (l.takeWhile isLocalChar).length with
    | nil => rw [hd] at h; cases h
    | cons c a2 =>
      rw [hd] at h
      dsimp only at h
      by_cases hc : c = '@'
      · subst hc
        rw [if_pos rfl] at h
        cases hbt : domainBT a2 (a2.takeWhile isDomainChar).length with
        | some d =>
          rw [hbt] at h
          dsimp only at h
          refine ⟨a2, d, ?_, hlp, hbt, by simpa using h.symm⟩
          conv_lhs => rw [← takeWhile_append_drop isLocalChar l]
          rw [hd]
        | none => rw [hbt] at h; cases h
      · rw [if_neg hc] at h; cases h

theorem isDomainChar_of_label {c : Char} (h : isLabelChar c = true) :
    isDomainChar c = true := by
  simp only [isLabelChar, Bool.or_eq_true, decide_eq_true_eq] at h
  simp only [isDomainChar, Bool.or_eq_true, decide_eq_true_eq]
  tauto

/-- Decomposition of a spec-valid email shape. -/
theorem validEmailShaped_decomp {sub : List Char} (h : validEmailShaped sub = true) :
    ∃ lp dls tld,
      sub = lp ++ '@' :: (dls ++ '.' :: tld) ∧
      lp = sub.takeWhile isLocalChar ∧ lp ≠ [] ∧
      dls ≠ [] ∧ (∀ c ∈ dls, isDomainChar c = true) ∧
      tld.all Char.isAlpha = true ∧ 2 ≤ tld.length := by
  rw [validEmailShaped] at h
  by_cases hlp0 : (sub.takeWhile isLocalChar).length = 0
  · rw [if_pos hlp0] at h; cases h
  · rw [if_neg hlp0] at h
    cases hd : sub.drop (sub.takeWhile isLocalChar).length with
    | nil => rw [hd] at h; cases h
    | cons c d =>
      rw [hd] at h
      dsimp only at h
      by_cases hc : c = '@'
      · subst hc
        rw [if_pos rfl] at h
        simp only [Bool.and_eq_true, decide_eq_true_eq] at h
        obtain ⟨⟨hlen, hlabels⟩, htld⟩ := h
        have hpne : splitDots d ≠ [] := splitDots_ne_nil d
        obtain ⟨ps, t, hpt⟩ : ∃ ps t, splitDots d = ps ++ [t] :=
          ⟨(splitDots d).dropLast, (splitDots d).getLast hpne,
            (List.dropLast_append_getLast hpne).symm⟩
        have hps_eq : (splitDots d).dropLast = ps := by
          rw [hpt, List.dropLast_concat]
        have hlast : (splitDots d).getLastD [] = t := by
          rw [hpt]
          simp
        have hpslen : 1 ≤ ps.length := by
          have := hlen
          rw [hpt] at this
          simp only [List.length_append, List.length_cons, List.length_nil] at this
          omega
        have hpsne : ps ≠ [] := by
          cases ps with
          | nil => simp at hpslen
          | cons a b => simp
        have hd_eq : d = joinDots ps ++ '.' :: t := by
          conv_lhs => rw [← joinDots_splitDots d]
          rw [hpt, joinDots_append_last ps t hpsne]
        have hlab : ∀ p ∈ ps, p ≠ [] ∧ (∀ c ∈ p, isLabelChar c = true) := by
          intro p hp
          rw [← hps_eq] at hp
          have := List.all_eq_true.mp hlabels p hp
          simp only [Bool.and_eq_true, decide_eq_true_eq, List.all_eq_true] at this
          exact ⟨by simpa [List.length_eq_zero] using this.1, this.2⟩
        have hdlsne : joinDots ps ≠ [] := by
          cases ps with
          | nil => exact absurd rfl hpsne
          | cons p1 rest =>
            have hp1 := (hlab p1 (by simp)).1
            cases rest with
            | nil => simpa [joinDots] using hp1
            | cons q qs =>
              simp only [joinDots]
              intro hcon
              exact hp1 (List.append_eq_nil.mp hcon).1
        have hdls : ∀ c ∈ joinDots ps, isDomainChar c = true := by
          intro c hcmem
          rcases mem_joinDots hcmem with rfl | ⟨p, hp, hcp⟩
          · decide
          · exact isDomainChar_of_label ((hlab p hp).2 c hcp)
        rw [hlast] at htld
        simp only [validTld, Bool.and_eq_true, decide_eq_true_eq] at htld
        refine ⟨sub.takeWhile isLocalChar, joinDots ps, t, ?_, rfl, ?_, hdlsne, hdls,
          htld.2, htld.1⟩
        · conv_lhs => rw [← takeWhile_append_drop isLocalChar sub]
          rw [hd, hd_eq]
        · simpa [List.length_eq_zero] using hlp0
      · rw [if_neg hc] at h; cases h

/-- Completeness of the `EMAIL_RE` matcher: a spec-valid email shape at the
head of the input produces a match. -/
theorem matchEmailAt_append_of_valid {sub : List Char} (post : List Char)
    (h : validEmailShaped sub = true) : matchEmailAt (sub ++ post) ≠ none := by
  obtain ⟨lp, dls, tld, hsub, hlp_eq, hlpne, hdlsne, hdls, htldall, htldlen⟩ :=
    validEmailShaped_decomp h
  have hlpmem : ∀ x ∈ lp, isLocalChar x = true := by
    intro x hx
    rw [hlp_eq] at hx
    exact List.mem_takeWhile_imp hx
  have hkey : sub ++ post = lp ++ '@' :: (dls ++ ('.' :: (tld ++ post))) := by
    rw [hsub]
    simp [List.append_assoc]
  have htw : (sub ++ post).takeWhile isLocalChar = lp := by
    rw [hkey, takeWhile_all_append isLocalChar lp _ hlpmem, List.takeWhile_cons]
    rw [if_neg (by decide : ¬ isLocalChar '@' = true)]
    simp
  have hdrop : (sub ++ post).drop lp.length = '@' :: (dls ++ ('.' :: (tld ++ post))) := by
    rw [hkey]
    exact List.drop_left lp _
  have hj : 1 ≤ dls.length := by
    cases dls with
    | nil => exact absurd rfl hdlsne
    | cons a b => simp
  have hm : dls.length ≤ ((dls ++ ('.' :: (tld ++ post))).takeWhile isDomainChar).length := by
    rw [takeWhile_all_append isDomainChar dls _ hdls]
    simp
  have hdot : matchDotTld ((dls ++ ('.' :: (tld ++ post))).drop dls.length) ≠ none := by
    rw [List.drop_left dls ('.' :: (tld ++ post))]
    have hta : 2 ≤ ((tld ++ post).takeWhile Char.isAlpha).length := by
      rw [takeWhile_all_append Char.isAlpha tld post
        (by simpa [List.all_eq_true] using htldall)]
      simp only [List.length_append]
      omega
    rw [matchDotTld_of_valid hta]
    simp
  have hbt : domainBT (dls ++ ('.' :: (tld ++ post)))
      ((dls ++ ('.' :: (tld ++ post))).takeWhile isDomainChar).length ≠ none :=
    domainBT_ne_none hj hm hdot
  rw [matchEmailAt, htw, if_neg (by simpa [List.length_eq_zero] using hlpne)]
  rw [hdrop]
  dsimp only
  rw [if_pos rfl]
  cases hbtv : domainBT (dls ++ ('.' :: (tld ++ post)))
      ((dls ++ ('.' :: (tld ++ post))).takeWhile isDomainChar).length with
  | some dd => simp
  | none => exact absurd hbtv hbt

theorem matchEmailAt_pos {l : List Char} {n : Nat} (h : matchEmailAt l = some n) :
    1 ≤ n ∧ l ≠ [] := by
  obtain ⟨a2, d, hl, hlp, _, hn⟩ := matchEmailAt_some h
  constructor
  · omega
  · intro hnil
    rw [hnil] at hlp
    exact hlp rfl

/-- C4 counterexample: the text "a@b.cc x@y.dd" contains the valid
`user@domain.tld`-shaped substring "x@y.dd", but `extract_email` returns the
earlier match "a@b.cc", not that substring. -/
theorem c4_counterexample :
    validEmailShaped "x@y.dd".data = true ∧
    occursIn "x@y.dd".data "a@b.cc x@y.dd".data = true ∧
    extract_email "a@b.cc x@y.dd" = "a@b.cc" ∧
    "a@b.cc" ≠ "x@y.dd" := by decide

/-- C4 (amended): for all input text containing a valid
`user@domain.tld`-shaped substring, `extract_email` returns a nonempty
substring of the text — the leftmost greedy `EMAIL_RE` match — which need
not equal the given valid-shaped substring when several candidates overlap. -/
theorem c4_email_found (t sub : String)
    (hvalid : validEmailShaped sub.data = true)
    (hocc : occursIn sub.data t.data = true) :
    extract_email t ≠ "" ∧ occursIn (extract_email t).data t.data = true := by
  obtain ⟨u, v, huv⟩ := (occursIn_iff _ _).mp hocc
  have hsuff : suffOf (sub.data ++ v) t.data := ⟨u, huv⟩
  have hmatch : matchEmailAt (sub.data ++ v) ≠ none :=
    matchEmailAt_append_of_valid v hvalid
  obtain ⟨n, hn⟩ : ∃ n, matchEmailAt (sub.data ++ v) = some n := by
    cases hh : matchEmailAt (sub.data ++ v) with
    | none => exact absurd hh hmatch
    | some n => exact ⟨n, rfl⟩
  have hne : sub.data ++ v ≠ [] := (matchEmailAt_pos hn).2
  have hscan : scanSearch matchEmailAt t.data ≠ none :=
    scanSearch_ne_none hsuff hn hne
  cases hs : scanSearch matchEmailAt t.data with
  | none => exact absurd hs hscan
  | some m =>
    obtain ⟨s, n', hsOf, hfs, hm⟩ := scanSearch_some hs
    obtain ⟨hn'pos, hsne⟩ := matchEmailAt_pos hfs
    have hmne : m ≠ [] := by
      cases s with
      | nil => exact absurd rfl hsne
      | cons c srest =>
        rw [hm]
        cases n' with
        | zero => omega
        | succ k => simp [List.take_succ_cons]
    have hdata : (extract_email t).data = m := by
      rw [extract_email, hs]
    constructor
    · rw [extract_email, hs]
      intro he
      exact hmne (by simpa using congrArg String.data he)
    · rw [hdata]
      obtain ⟨u', hu'⟩ := hsOf
      refine (occursIn_iff _ _).mpr ⟨u', s.drop n', ?_⟩
      rw [← hu', hm, List.take_append_drop]

/-- C4 witness: a concrete text containing one valid email shape. -/
theorem c4_email_found_witness :
    extract_email "reach me at bob@mail.org please" ≠ "" ∧
    occursIn (extract_email "reach me at bob@mail.org please").data
      "reach me at bob@mail.org please".data = true :=
  c4_email_found "reach me at bob@mail.org please" "bob@mail.org"
    (by decide) (by decide)

/-! ### Phone matcher characterizations (C6) -/

theorem digit_not_space {c : Char} (h : c.isDigit = true) : isSpaceChar c = false := by
  cases hs : isSpaceChar c
  · rfl
  · exfalso
    simp only [isSpaceChar, Bool.or_eq_true, decide_eq_true_eq] at hs
    rcases hs with ((((rfl | rfl) | rfl) | rfl) | rfl) | rfl <;> exact absurd h (by decide)

theorem digit_ne_plus {c : Char} (h : c.isDigit = true) : c ≠ '+' := by
  rintro rfl
  exact absurd h (by decide)

theorem digit_phoneChar {c : Char} (h : c.isDigit = true) : isPhoneChar c = true := by
  simp [isPhoneChar, h]

theorem findLastDigitIdx_some {l : List Char} {i : Nat}
    (h : findLastDigitIdx l = some i) :
    ∃ c, l.get? i = some c ∧ c.isDigit = true := by
  induction l generalizing i with
  | nil => simp [findLastDigitIdx] at h
  | cons c rest ih =>
    rw [findLastDigitIdx] at h
    cases hr : findLastDigitIdx rest with
    | some j =>
      rw [hr] at h
      dsimp only at h
      obtain ⟨d, hd, hdig⟩ := ih hr
      have : i = j + 1 := by simpa using h.symm
      subst this
      exact ⟨d, by simpa using hd, hdig⟩
    | none =>
      rw [hr] at h
      dsimp only at h
      by_cases hc : c.isDigit = true
      · rw [if_pos hc] at h
        have : i = 0 := by simpa using h.symm
        subst this
        exact ⟨c, rfl, hc⟩
      · rw [if_neg hc] at h; cases h

theorem findLastDigitIdx_ge {l : List Char} {k : Nat} {c : Char}
    (hk : l.get? k = some c) (hc : c.isDigit = true) :
    ∃ i, findLastDigitIdx l = some i ∧ k ≤ i := by
  induction l generalizing k with
  | nil => simp at hk
  | cons d rest ih =>
    cases k with
    | zero =>
      simp only [List.get?_cons_zero, Option.some.injEq] at hk
      subst hk
      rw [findLastDigitIdx]
      cases hr : findLastDigitIdx rest with
      | some j => exact ⟨j + 1, rfl, by omega⟩
      | none => exact ⟨0, by rw [if_pos hc], Nat.le_refl 0⟩
    | succ k =>
      simp only [List.get?_cons_succ] at hk
      obtain ⟨i, hi, hki⟩ := ih hk
      rw [findLastDigitIdx, hi]
      exact ⟨i + 1, rfl, by omega⟩

theorem lastDigit7_some {run : List Char} {k : Nat} (h : lastDigit7 run = some k) :
    7 ≤ k ∧ ∃ c, run.get? k = some c ∧ c.isDigit = true := by
  rw [lastDigit7] at h
  cases hf : findLastDigitIdx run with
  | some i =>
    rw [hf] at h
    dsimp only at h
    by_cases h7 : 7 ≤ i
    · rw [if_pos h7] at h
      have : k = i := by simpa using h.symm
      subst this
      exact ⟨h7, findLastDigitIdx_some hf⟩
    · rw [if_neg h7] at h; cases h
  | none => rw [hf] at h; cases h

theorem lastDigit7_ne_none {run : List Char} {k : Nat} {c : Char}
    (hk : run.get? k = some c) (hc : c.isDigit = true) (h7 : 7 ≤ k) :
    lastDigit7 run ≠ none := by
  obtain ⟨i, hi, hki⟩ := findLastDigitIdx_ge hk hc
  rw [lastDigit7, hi]
  dsimp only
  rw [if_pos (by omega)]
  simp

theorem matchPhoneCore_some {l : List Char} {n : Nat} (h : matchPhoneCore l = some n) :
    ∃ d1 rest k, l = d1 :: rest ∧ d1.isDigit = true ∧
      lastDigit7 (rest.takeWhile isPhoneChar) = some k ∧ n = 1 + k + 1 := by
  cases l with
  | nil => simp [matchPhoneCore] at h
  | cons c rest =>
    rw [matchPhoneCore] at h
    by_cases hc : c.isDigit = true
    · rw [if_pos hc] at h
      cases hld : lastDigit7 (rest.takeWhile isPhoneChar) with
      | some k =>
        rw [hld] at h
        dsimp only at h
        exact ⟨c, rest, k, rfl, hc, hld, by simpa using h.symm⟩
      | none => rw [hld] at h; cases h
    · rw [if_neg hc] at h; cases h

/-- The characters a phone match consists of: optional `+`, a digit, at
least 7 class characters, a final digit. -/
theorem phone_match_take {s : List Char} {n : Nat} (h : matchPhoneAt s = some n) :
    ∃ plus d1 mid d2, s.take n = plus ++ d1 :: (mid ++ [d2]) ∧
      (plus = [] ∨ plus = ['+']) ∧ d1.isDigit = true ∧ d2.isDigit = true ∧
      7 ≤ mid.length ∧ (∀ c ∈ mid, isPhoneChar c = true) := by
  have core_take : ∀ (l1 : List Char) (nc : Nat), matchPhoneCore l1 = some nc →
      ∃ d1 mid d2, l1.take nc = d1 :: (mid ++ [d2]) ∧
        d1.isDigit = true ∧ d2.isDigit = true ∧
        7 ≤ mid.length ∧ (∀ c ∈ mid, isPhoneChar c = true) := by
    intro l1 nc hcore
    obtain ⟨d1, rest, k, rfl, hd1, hld, rfl⟩ := matchPhoneCore_some hcore
    obtain ⟨h7, d2, hget, hd2⟩ := lastDigit7_some hld
    have hklt : k < (rest.takeWhile isPhoneChar).length := (List.get?_eq_some.mp hget).1
    have htake : rest.take (k + 1) = (rest.takeWhile isPhoneChar).take k ++ [d2] := by
      have hsplit : rest = rest.takeWhile isPhoneChar ++
          rest.drop (rest.takeWhile isPhoneChar).length :=
        (takeWhile_append_drop isPhoneChar rest).symm
      conv_lhs => rw [hsplit]
      rw [List.take_append_of_le_length (by omega)]
      exact take_succ_get? _ k d2 hget
    refine ⟨d1, (rest.takeWhile isPhoneChar).take k, d2, ?_, hd1, hd2, ?_, ?_⟩
    · have : 1 + k + 1 = k + 2 := by omega
      rw [this]
      simp only [List.take_succ_cons]
      rw [htake]
    · rw [List.length_take_of_le (by omega)]; omega
    · intro c hcmem
      exact List.mem_takeWhile_imp (List.take_subset k _ hcmem)
  cases s with
  | nil => simp [matchPhoneAt] at h
  | cons c l1 =>
    rw [matchPhoneAt] at h
    by_cases hc : c = '+'
    · subst hc
      rw [if_pos rfl] at h
      obtain ⟨nc, hcore, rfl⟩ : ∃ nc, matchPhoneCore l1 = some nc ∧ n = nc + 1 := by
        rcases Option.map_eq_some'.mp h with ⟨m, hm, hf⟩
        exact ⟨m, hm, hf.symm⟩
      obtain ⟨d1, mid, d2, htake, hd1, hd2, hlen, hmem⟩ := core_take l1 nc hcore
      exact ⟨['+'], d1, mid, d2, by simp [List.take_succ_cons, htake], Or.inr rfl,
        hd1, hd2, hlen, hmem⟩
    · rw [if_neg hc] at h
      obtain ⟨d1, mid, d2, htake, hd1, hd2, hlen, hmem⟩ := core_take (c :: l1) n h
      exact ⟨[], d1, mid, d2, by simpa using htake, Or.inl rfl, hd1, hd2, hlen, hmem⟩

theorem stripChars_eq_self {l : List Char}
    (h1 : ∀ c, l.head? = some c → isSpaceChar c = false)
    (h2 : ∀ c, l.getLast? = some c → isSpaceChar c = false) :
    stripChars l = l := by
  cases l with
  | nil => rfl
  | cons c rest =>
    rw [stripChars]
    rw [List.dropWhile_cons, if_neg (by simp [h1 c rfl])]
    cases hr : (c :: rest).reverse with
    | nil => simp at hr
    | cons g gr =>
      have hg : (c :: rest).getLast? = some g := by
        rw [← List.head?_reverse, hr]
        rfl
      rw [List.dropWhile_cons, if_neg (by simp [h2 g hg])]
      rw [← hr, List.reverse_reverse]

theorem phoneCoreShaped_decomp {core : List Char} (h : phoneCoreShaped core = true) :
    ∃ d1 mid d2, core = d1 :: (mid ++ [d2]) ∧ d1.isDigit = true ∧
      d2.isDigit = true ∧ 7 ≤ mid.length ∧ (∀ c ∈ mid, isPhoneChar c = true) := by
  cases core with
  | nil => simp [phoneCoreShaped] at h
  | cons c rest =>
    rw [phoneCoreShaped] at h
    simp only [Bool.and_eq_true, decide_eq_true_eq] at h
    obtain ⟨⟨⟨hd1, hlen⟩, hall⟩, hlast⟩ := h
    have hrne : rest ≠ [] := by
      intro hcon
      rw [hcon] at hlen
      simp at hlen
    obtain ⟨mid, d2, hmd⟩ : ∃ mid d2, rest = mid ++ [d2] :=
      ⟨rest.dropLast, rest.getLast hrne, (List.dropLast_append_getLast hrne).symm⟩
    rw [hmd, List.getLast?_concat] at hlast
    refine ⟨c, mid, d2, by rw [hmd], hd1, hlast, ?_, ?_⟩
    · have : rest.length = mid.length + 1 := by rw [hmd]; simp
      omega
    · intro x hx
      have : x ∈ c :: rest := by
        rw [hmd]
        simp [hx]
      exact List.all_eq_true.mp hall x this

theorem phoneCoreShaped_build {d1 d2 : Char} {mid : List Char}
    (hd1 : d1.isDigit = true) (hd2 : d2.isDigit = true)
    (hlen : 7 ≤ mid.length) (hmem : ∀ c ∈ mid, isPhoneChar c = true) :
    phoneCoreShaped (d1 :: (mid ++ [d2])) = true := by
  rw [phoneCoreShaped, List.getLast?_concat]
  simp only [Bool.and_eq_true, decide_eq_true_eq, List.all_eq_true]
  refine ⟨⟨⟨hd1, by simp; omega⟩, ?_⟩, hd2⟩
  intro x hx
  rcases List.mem_cons.mp hx with rfl | hx2
  · exact digit_phoneChar hd1
  · rcases List.mem_append.mp hx2 with hm | hd
    · exact hmem x hm
    · rw [List.mem_singleton.mp hd]
      exact digit_phoneChar hd2

theorem validPhoneShaped_decomp {l : List Char} (h : validPhoneShaped l = true) :
    ∃ plus d1 mid d2, l = plus ++ d1 :: (mid ++ [d2]) ∧
      (plus = [] ∨ plus = ['+']) ∧ d1.isDigit = true ∧ d2.isDigit = true ∧
      7 ≤ mid.length ∧ (∀ c ∈ mid, isPhoneChar c = true) := by
  rw [validPhoneShaped] at h
  by_cases hp : l.head? = some '+'
  · rw [if_pos hp] at h
    cases l with
    | nil => simp at hp
    | cons c0 rest0 =>
      simp only [List.head?_cons, Option.some.injEq] at hp
      subst hp
      simp only [List.tail_cons] at h
      obtain ⟨d1, mid, d2, hr, hd1, hd2, hlen, hmem⟩ := phoneCoreShaped_decomp h
      exact ⟨['+'], d1, mid, d2, by rw [hr]; rfl, Or.inr rfl, hd1, hd2, hlen, hmem⟩
  · rw [if_neg hp] at h
    obtain ⟨d1, mid, d2, hr, hd1, hd2, hlen, hmem⟩ := phoneCoreShaped_decomp h
    exact ⟨[], d1, mid, d2, by rw [hr]; rfl, Or.inl rfl, hd1, hd2, hlen, hmem⟩

theorem validPhoneShaped_build {plus : List Char} {d1 d2 : Char} {mid : List Char}
    (hplus : plus = [] ∨ plus = ['+']) (hd1 : d1.isDigit = true)
    (hd2 : d2.isDigit = true) (hlen : 7 ≤ mid.length)
    (hmem : ∀ c ∈ mid, isPhoneChar c = true) :
    validPhoneShaped (plus ++ d1 :: (mid ++ [d2])) = true := by
  rw [validPhoneShaped]
  rcases hplus with rfl | rfl
  · simp only [List.nil_append]
    rw [if_neg (by simp [digit_ne_plus hd1])]
    exact phoneCoreShaped_build hd1 hd2 hlen hmem
  · simp only [List.cons_append, List.nil_append]
    rw [if_pos (by rfl)]
    simpa using phoneCoreShaped_build hd1 hd2 hlen hmem

/-- Completeness of the `PHONE_RE` matcher: a spec-valid phone shape at the
head of the input produces a match. -/
theorem matchPhoneAt_append_of_valid {sub : List Char} (post : List Char)
    (h : validPhoneShaped sub = true) : matchPhoneAt (sub ++ post) ≠ none := by
  obtain ⟨plus, d1, mid, d2, rfl, hplus, hd1, hd2, hlen, hmem⟩ :=
    validPhoneShaped_decomp h
  have hcore : matchPhoneCore (d1 :: (mid ++ (d2 :: post))) ≠ none := by
    rw [matchPhoneCore]
    rw [if_pos hd1]
    have hget : ((mid ++ (d2 :: post)).takeWhile isPhoneChar).get? mid.length =
        some d2 := by
      rw [takeWhile_all_append isPhoneChar mid _ hmem]
      rw [List.get?_append_right (Nat.le_refl _), Nat.sub_self]
      rw [List.takeWhile_cons, if_pos (digit_phoneChar hd2)]
      rfl
    have hnn := lastDigit7_ne_none hget hd2 hlen
    cases hld : lastDigit7 ((mid ++ (d2 :: post)).takeWhile isPhoneChar) with
    | some k => simp
    | none => exact absurd hld hnn
  have hshape : (plus ++ d1 :: (mid ++ [d2])) ++ post =
      plus ++ (d1 :: (mid ++ (d2 :: post))) := by
    simp
  rw [hshape]
  rcases hplus with rfl | rfl
  · simp only [List.nil_append]
    rw [matchPhoneAt]
    rw [if_neg (digit_ne_plus hd1)]
    exact hcore
  · simp only [List.cons_append, List.nil_append]
    rw [matchPhoneAt, if_pos rfl]
    cases hc : matchPhoneCore (d1 :: (mid ++ (d2 :: post))) with
    | some m => simp
    | none => exact absurd hc hcore

/-- Everything true of a successful phone scan result: the match is its own
strip, nonempty, spec-phone-shaped, and a substring of the input. -/
theorem phone_scan_result {t m : List Char}
    (hs : scanSearch matchPhoneAt t = some m) :
    stripChars m = m ∧ m ≠ [] ∧ validPhoneShaped m = true ∧ occursIn m t = true := by
  obtain ⟨s, n, hsOf, hms, hm⟩ := scanSearch_some hs
  obtain ⟨plus, d1, mid, d2, htake, hplus, hd1, hd2, hlen, hmem⟩ := phone_match_take hms
  rw [hm, htake]
  have hconcat : plus ++ d1 :: (mid ++ [d2]) = (plus ++ (d1 :: mid)) ++ [d2] := by
    simp
  have hlast : (plus ++ d1 :: (mid ++ [d2])).getLast? = some d2 := by
    rw [hconcat]
    exact List.getLast?_concat _
  have hstrip : stripChars (plus ++ d1 :: (mid ++ [d2])) = plus ++ d1 :: (mid ++ [d2]) := by
    apply stripChars_eq_self
    · intro c hc
      rcases hplus with rfl | rfl
      · simp only [List.nil_append, List.head?_cons, Option.some.injEq] at hc
        subst hc
        exact digit_not_space hd1
      · simp only [List.cons_append, List.nil_append, List.head?_cons,
          Option.some.injEq] at hc
        subst hc
        decide
    · intro c hc
      rw [hlast] at hc
      rw [Option.some.injEq] at hc
      subst hc
      exact digit_not_space hd2
  refine ⟨hstrip, by rw [hconcat]; simp, validPhoneShaped_build hplus hd1 hd2 hlen hmem, ?_⟩
  obtain ⟨u, hu⟩ := hsOf
  rw [← htake]
  refine (occursIn_iff _ _).mpr ⟨u, s.drop n, ?_⟩
  rw [← hu, List.take_append_drop]

/-- C6 counterexample: `extract_phone "1-2-3-4-5"` returns the whole string,
which contains only 5 digits — not a digit run of at least 9 digits, which
the claim says every result must be (and absent which the claim says the
result must be empty). -/
theorem c6_counterexample :
    extract_phone "1-2-3-4-5" = "1-2-3-4-5" ∧
    ("1-2-3-4-5".data.filter Char.isDigit).length = 5 := by decide

/-- C6 (amended): `extract_phone` returns the first (leftmost, greedy)
`PHONE_RE` match: a substring made of an optional `+`, a digit, at least 7
digit/hyphen/space characters and a final digit (at least 9 characters
after the optional `+`, but not necessarily 9 digits); it returns a
nonempty result exactly when the input contains such a substring, and the
empty string otherwise. -/
theorem c6_phone_shape (t : String) :
    (extract_phone t ≠ "" →
      validPhoneShaped (extract_phone t).data = true ∧
      occursIn (extract_phone t).data t.data = true) ∧
    (∀ sub : String, validPhoneShaped sub.data = true →
      occursIn sub.data t.data = true → extract_phone t ≠ "") := by
  constructor
  · intro hne
    cases hs : scanSearch matchPhoneAt t.data with
    | none =>
      exfalso
      rw [extract_phone, hs] at hne
      exact hne rfl
    | some m =>
      obtain ⟨hstrip, hmne, hvalid, hocc⟩ := phone_scan_result hs
      have hdata : (extract_phone t).data = m := by
        rw [extract_phone, hs]
        show (String.mk (stripChars m)).data = m
        rw [hstrip]
      rw [hdata]
      exact ⟨hvalid, hocc⟩
  · intro sub hvalid hocc
    obtain ⟨u, v, huv⟩ := (occursIn_iff _ _).mp hocc
    have hmatch : matchPhoneAt (sub.data ++ v) ≠ none :=
      matchPhoneAt_append_of_valid v hvalid
    obtain ⟨n, hn⟩ : ∃ n, matchPhoneAt (sub.data ++ v) = some n := by
      cases hh : matchPhoneAt (sub.data ++ v) with
      | none => exact absurd hh hmatch
      | some n => exact ⟨n, rfl⟩
    have hsubne : sub.data ≠ [] := by
      intro hcon
      rw [hcon] at hvalid
      exact absurd hvalid (by decide)
    have hsne : sub.data ++ v ≠ [] := by
      intro hcon
      exact hsubne (List.append_eq_nil.mp hcon).1
    have hscan : scanSearch matchPhoneAt t.data ≠ none :=
      scanSearch_ne_none ⟨u, huv⟩ hn hsne
    cases hs : scanSearch matchPhoneAt t.data with
    | none => exact absurd hs hscan
    | some m =>
      obtain ⟨hstrip, hmne, -, -⟩ := phone_scan_result hs
      rw [extract_phone, hs]
      intro he
      have : stripChars m = [] := by simpa using congrArg String.data he
      rw [hstrip] at this
      exact hmne this

/-- C6 witness: a concrete phone-shaped substring is found, and a found
result is phone-shaped. -/
theorem c6_phone_shape_witness :
    extract_phone "call +1 234-567-8901 now" ≠ "" ∧
    validPhoneShaped (extract_phone "call +1 234-567-8901 now").data = true :=
  ⟨(c6_phone_shape "call +1 234-567-8901 now").2 "+1 234-567-8901" (by decide) (by decide),
   ((c6_phone_shape "call +1 234-567-8901 now").1
     ((c6_phone_shape "call +1 234-567-8901 now").2 "+1 234-567-8901"
       (by decide) (by decide))).1⟩

/-! ### Name extractor characterizations (C5) -/

theorem alpha_not_space {c : Char} (h : c.isAlpha = true) : isSpaceChar c = false := by
  cases hs : isSpaceChar c
  · rfl
  · exfalso
    simp only [isSpaceChar, Bool.or_eq_true, decide_eq_true_eq] at hs
    rcases hs with ((((rfl | rfl) | rfl) | rfl) | rfl) | rfl <;> exact absurd h (by decide)

theorem alpha_wordChar {c : Char} (h : c.isAlpha = true) : isWordChar c = true := by
  simp [isWordChar, h]

theorem matchLit_some_chars {lit l r : List Char} (h : matchLit lit l = some r) :
    ∀ c ∈ lit, ∃ d ∈ l, lcEq c d = true := by
  induction lit generalizing l with
  | nil => simp
  | cons c cs ih =>
    cases l with
    | nil => simp [matchLit] at h
    | cons d ds =>
      rw [matchLit] at h
      by_cases hcd : lcEq c d = true
      · rw [if_pos hcd] at h
        intro x hx
        rcases List.mem_cons.mp hx with rfl | hxs
        · exact ⟨d, by simp, hcd⟩
        · obtain ⟨e, he, hlce⟩ := ih h x hxs
          exact ⟨e, by simp [he], hlce⟩
      · rw [if_neg hcd] at h; cases h

theorem matchLit_suffOf {lit l r : List Char} (h : matchLit lit l = some r) :
    suffOf r l := by
  induction lit generalizing l with
  | nil =>
    rw [matchLit] at h
    rw [Option.some.injEq] at h
    rw [← h]
    exact suffOf_refl l
  | cons c cs ih =>
    cases l with
    | nil => simp [matchLit] at h
    | cons d ds =>
      rw [matchLit] at h
      by_cases hcd : lcEq c d = true
      · rw [if_pos hcd] at h
        exact suffOf_of_suffOf_tail (ih h)
      · rw [if_neg hcd] at h; cases h

theorem suffOf_subset {s l : List Char} (h : suffOf s l) : ∀ c ∈ s, c ∈ l := by
  obtain ⟨u, hu⟩ := h
  intro c hc
  rw [← hu]
  simp [hc]

/-- Every trigger alternative of the name pattern contains the letter `m`,
so a text without `m`/`M` cannot match. -/
theorem matchLit_none_no_m {lit l : List Char} (hm : 'm' ∈ lit)
    (h : ∀ c ∈ l, c.toLower ≠ 'm') : matchLit lit l = none := by
  cases hml : matchLit lit l with
  | none => rfl
  | some r =>
    exfalso
    obtain ⟨d, hd, hlc⟩ := matchLit_some_chars hml 'm' hm
    simp only [lcEq, decide_eq_true_eq] at hlc
    exact h d hd (hlc.symm.trans (by decide))

theorem matchNameAt_none_no_m {l : List Char} (h : ∀ c ∈ l, c.toLower ≠ 'm') :
    matchNameAt l = none := by
  have h1 : nameAlt1 l = none := by
    rw [nameAlt1, matchLit_none_no_m (by simp) h]
    rfl
  have h3 : nameAlt3 l = none := by
    rw [nameAlt3, matchLit_none_no_m (by simp) h]
    rfl
  have h2 : nameAlt2 l = none := by
    rw [nameAlt2]
    cases hi : matchLit ['i'] l with
    | none => rfl
    | some r =>
      have hr : ∀ c ∈ r.drop (r.takeWhile isSpaceChar).length, c.toLower ≠ 'm' := by
        intro c hc
        exact h c (suffOf_subset (matchLit_suffOf hi) c (List.drop_subset _ r hc))
      have key : matchLit ['a', 'm'] (r.drop (r.takeWhile isSpaceChar).length) = none :=
        matchLit_none_no_m (by simp) hr
      simp [key]
  rw [matchNameAt, h1, h2, h3]
  rfl

theorem nameSearch_none_no_m {l : List Char} (h : ∀ c ∈ l, c.toLower ≠ 'm') :
    scanCapture matchNameAt l = none := by
  induction l with
  | nil => rfl
  | cons c rest ih =>
    rw [scanCapture, matchNameAt_none_no_m h]
    exact ih fun d hd => h d (List.mem_cons_of_mem c hd)

/-- C5 counterexample: "my name is jane doe" contains no capitalized word at
all, yet the extractor matches (the pattern is compiled with `re.I` and its
word class `[A-Za-z]...` is case-insensitive) and returns the title-cased
"Jane Doe" instead of the empty string the claim requires. -/
theorem c5_counterexample :
    ("my name is jane doe".data.all fun c => !c.isUpper) = true ∧
    extract_name "my name is jane doe" = "Jane Doe" := by decide

/-- The capture computation on a two-word name: `captureWords` captures both
words and the separating space. -/
theorem captureWords_two_words (a : Char) (t1 : List Char) (w2 : List Char)
    (ha : a.isAlpha = true) (ht1 : ∀ c ∈ t1, c.isAlpha = true) (ht1ne : t1 ≠ [])
    (hw2 : ∀ c ∈ w2, c.isAlpha = true) (hw2len : 2 ≤ w2.length) :
    captureWords (a :: (t1 ++ ' ' :: w2)) = some ((a :: t1) ++ ' ' :: w2) := by
  obtain ⟨b, t2, rfl⟩ : ∃ b t2, w2 = b :: t2 := by
    cases w2 with
    | nil => simp at hw2len
    | cons b t2 => exact ⟨b, t2, rfl⟩
  have hb : b.isAlpha = true := hw2 b (by simp)
  have ht2 : ∀ c ∈ t2, c.isAlpha = true := fun c hc => hw2 c (by simp [hc])
  have ht2ne : t2 ≠ [] := by
    intro hcon
    rw [hcon] at hw2len
    simp at hw2len
  have htw1 : (t1 ++ ' ' :: (b :: t2)).takeWhile isWordChar = t1 := by
    rw [takeWhile_all_append isWordChar t1 _ (fun c hc => alpha_wordChar (ht1 c hc))]
    rw [List.takeWhile_cons, if_neg (by decide)]
    simp
  have hmw : matchWord (a :: (t1 ++ ' ' :: (b :: t2))) =
      some (a :: t1, ' ' :: (b :: t2)) := by
    rw [matchWord]
    rw [if_pos ha, htw1]
    rw [if_neg (by simpa [List.length_eq_zero] using ht1ne)]
    rw [List.drop_left t1 (' ' :: (b :: t2))]
  have htw2 : t2.takeWhile isWordChar = t2 :=
    List.takeWhile_eq_self_iff.mpr fun c hc => alpha_wordChar (ht2 c hc)
  have hmw2 : matchWord (b :: t2) = some (b :: t2, []) := by
    rw [matchWord]
    rw [if_pos hb, htw2]
    rw [if_neg (by simpa [List.length_eq_zero] using ht2ne)]
    rw [List.drop_length]
  have hsp2 : ((' ' :: (b :: t2)).takeWhile isSpaceChar) = [' '] := by
    rw [List.takeWhile_cons, if_pos (by decide)]
    rw [List.takeWhile_cons, if_neg (by simp [alpha_not_space hb])]
  have hrw3 : repWords 3 (' ' :: (b :: t2)) = (' ' :: (b :: t2), []) := by
    rw [repWords, hsp2]
    rw [if_neg (by decide)]
    have : ((' ' :: (b :: t2)).drop [' '].length) = b :: t2 := rfl
    rw [this, hmw2]
    dsimp only
    have h20 : repWords 2 ([] : List Char) = ([], []) := rfl
    rw [h20]
    simp
  rw [captureWords, hmw]
  dsimp only
  rw [hrw3]
  rw [if_neg (by simp)]

/-- C5 (amended): the name extractor matches the introducing phrases
case-insensitively with no capitalization requirement: any 2 words made of
letters (each at least 2 letters long) after "my name is " are captured and
returned title-cased; and an input that cannot contain any introducing
phrase (every trigger alternative contains the letter `m`; here: no `m` or
`M` at all) yields the empty string. -/
theorem c5_name_match :
    (∀ w1 w2 : List Char, (∀ c ∈ w1, c.isAlpha = true) → (∀ c ∈ w2, c.isAlpha = true) →
      2 ≤ w1.length → 2 ≤ w2.length →
      extract_name (String.mk ("my name is ".data ++ (w1 ++ ' ' :: w2))) =
        String.mk (titleChars (w1 ++ ' ' :: w2) false)) ∧
    (∀ s : String, (∀ c ∈ s.data, c.toLower ≠ 'm') → extract_name s = "") := by
  constructor
  · intro w1 w2 ha1 ha2 hl1 hl2
    obtain ⟨a, t1, rfl⟩ : ∃ a t1, w1 = a :: t1 := by
      cases w1 with
      | nil => simp at hl1
      | cons a t1 => exact ⟨a, t1, rfl⟩
    have ha : a.isAlpha = true := ha1 a (by simp)
    have ht1 : ∀ c ∈ t1, c.isAlpha = true := fun c hc => ha1 c (by simp [hc])
    have ht1ne : t1 ≠ [] := by
      intro hcon
      rw [hcon] at hl1
      simp at hl1
    have hWcons : (a :: t1) ++ ' ' :: w2 = a :: (t1 ++ ' ' :: w2) := rfl
    -- the trigger and the following space reduce definitionally
    have halt1 : nameAlt1 ('m' :: 'y' :: ' ' :: 'n' :: 'a' :: 'm' :: 'e' :: ' ' ::
        'i' :: 's' :: ' ' :: (a :: (t1 ++ ' ' :: w2))) =
        matchNameTail (' ' :: (a :: (t1 ++ ' ' :: w2))) := rfl
    have hsp : ((' ' :: (a :: (t1 ++ ' ' :: w2))).takeWhile isSpaceChar) = [' '] := by
      rw [List.takeWhile_cons, if_pos (by decide)]
      rw [List.takeWhile_cons, if_neg (by simp [alpha_not_space ha])]
    have hms1 : matchSpaces1 (' ' :: (a :: (t1 ++ ' ' :: w2))) =
        some (a :: (t1 ++ ' ' :: w2)) := by
      rw [matchSpaces1, hsp]
      rw [if_neg (by decide)]
      rfl
    have hcap := captureWords_two_words a t1 w2 ha ht1 ht1ne ha2 hl2
    have hmnt : matchNameTail (' ' :: (a :: (t1 ++ ' ' :: w2))) =
        some ((a :: t1) ++ ' ' :: w2) := by
      rw [matchNameTail, hms1]
      exact hcap
    have hmna : matchNameAt ('m' :: 'y' :: ' ' :: 'n' :: 'a' :: 'm' :: 'e' :: ' ' ::
        'i' :: 's' :: ' ' :: (a :: (t1 ++ ' ' :: w2))) =
        some ((a :: t1) ++ ' ' :: w2) := by
      rw [matchNameAt, halt1, hmnt]
      rfl
    have hscan : scanCapture matchNameAt ('m' :: 'y' :: ' ' :: 'n' :: 'a' :: 'm' ::
        'e' :: ' ' :: 'i' :: 's' :: ' ' :: (a :: (t1 ++ ' ' :: w2))) =
        some ((a :: t1) ++ ' ' :: w2) := by
      rw [scanCapture, hmna]
    have hLdata : (String.mk ("my name is ".data ++ ((a :: t1) ++ ' ' :: w2))).data =
        'm' :: 'y' :: ' ' :: 'n' :: 'a' :: 'm' :: 'e' :: ' ' :: 'i' :: 's' :: ' ' ::
          (a :: (t1 ++ ' ' :: w2)) := by
      show "my name is ".data ++ ((a :: t1) ++ ' ' :: w2) = _
      rw [show "my name is ".data =
        ['m', 'y', ' ', 'n', 'a', 'm', 'e', ' ', 'i', 's', ' '] from by decide]
      rfl
    -- the final strip is the identity: the capture starts and ends with letters
    obtain ⟨m2, z, hzw⟩ : ∃ m2 z, w2 = m2 ++ [z] := by
      have hw2ne : w2 ≠ [] := by
        intro hcon
        rw [hcon] at hl2
        simp at hl2
      exact ⟨w2.dropLast, w2.getLast hw2ne, (List.dropLast_append_getLast hw2ne).symm⟩
    have hz : z.isAlpha = true := ha2 z (by rw [hzw]; simp)
    have hstrip : stripChars ((a :: t1) ++ ' ' :: w2) = (a :: t1) ++ ' ' :: w2 := by
      apply stripChars_eq_self
      · intro c hc
        simp only [List.cons_append, List.head?_cons, Option.some.injEq] at hc
        subst hc
        exact alpha_not_space ha
      · intro c hc
        have hconc : (a :: t1) ++ ' ' :: w2 = ((a :: t1) ++ ' ' :: m2) ++ [z] := by
          rw [hzw]
          simp
        rw [hconc, List.getLast?_concat, Option.some.injEq] at hc
        subst hc
        exact alpha_not_space hz
    rw [extract_name, hLdata, hscan]
    dsimp only
    rw [hstrip]
  · intro s hs
    rw [extract_name, nameSearch_none_no_m hs]

/-- C5 witness: a concrete lowercase two-word name is matched and
title-cased; a concrete text with no `m` yields the empty string. -/
theorem c5_name_match_witness :
    extract_name (String.mk ("my name is ".data ++ ("john".data ++ ' ' :: "smith".data))) =
      String.mk (titleChars ("john".data ++ ' ' :: "smith".data) false) ∧
    extract_name "no trigger here" = "" :=
  ⟨c5_name_match.1 "john".data "smith".data (by decide) (by decide) (by decide) (by decide),
   c5_name_match.2 "no trigger here" (by decide)⟩

/-! ### Idempotence of `anonymize_text` (C8)

`re.sub` replaces every match by a token wrapped in square brackets, and
`[`/`]` belong to no character class of either pattern, so a token seals the
text around it: no match can cross it, and no new match can appear after a
substitution.  The key notion is *bracket agreement*: the substituted text
agrees with the original up to the first `[` of an inserted token. -/

/-- `x` agrees with `y` on a common prefix, after which `x` has a `[`. -/
def brAg (x y : List Char) : Prop :=
  x = y ∨ ∃ a b c, x = a ++ '[' :: b ∧ y = a ++ c

theorem brAg_cons {x y : List Char} (c : Char) (h : brAg x y) :
    brAg (c :: x) (c :: y) := by
  rcases h with rfl | ⟨a, b, cc, rfl, rfl⟩
  · exact Or.inl rfl
  · exact Or.inr ⟨c :: a, b, cc, rfl, rfl⟩

/-- Substitution output bracket-agrees with its input. -/
theorem subAll_brAg (g : List Char → Option Nat) (tk : List Char) :
    ∀ l, brAg (subAll g ('[' :: tk) l) l := by
  have key : ∀ N l, l.length ≤ N → brAg (subAll g ('[' :: tk) l) l := by
    intro N
    induction N with
    | zero =>
      intro l hl
      have : l = [] := List.eq_nil_of_length_eq_zero (Nat.le_zero.mp hl)
      subst this
      exact Or.inl rfl
    | succ N ih =>
      intro l hl
      cases l with
      | nil => exact Or.inl rfl
      | cons c rest =>
        rw [subAll_cons]
        cases hm : g (c :: rest) with
        | some n =>
          dsimp only
          exact Or.inr ⟨[], tk ++ subAll g ('[' :: tk) (rest.drop (n - 1)), c :: rest,
            by simp, rfl⟩
        | none =>
          dsimp only
          have := ih rest (by simp at hl; omega)
          exact brAg_cons c this
  exact fun l => key l.length l (Nat.le_refl _)

/-- If no suffix of `l` matches, the substitution is the identity. -/
theorem subAll_id (f : List Char → Option Nat) (tok : List Char) :
    ∀ l, (∀ s, suffOf s l → f s = none) → subAll f tok l = l := by
  intro l
  induction l with
  | nil => intro _; rfl
  | cons c rest ih =>
    intro hl
    rw [subAll_cons, hl (c :: rest) (suffOf_refl _)]
    dsimp only
    rw [ih fun s hs => hl s (suffOf_of_suffOf_tail hs)]

/-- A `[` ends every character run: an `EMAIL_RE` match before a `[` is
preserved whatever replaces the bracketed tail. -/
theorem matchEmailAt_bracket {a b d : List Char} {n : Nat}
    (h : matchEmailAt (a ++ '[' :: b) = some n) : matchEmailAt (a ++ d) ≠ none := by
  obtain ⟨a2, dd, hl, hlp0, hbt, -⟩ := matchEmailAt_some h
  have htwb : (a ++ '[' :: b).takeWhile isLocalChar = a.takeWhile isLocalChar :=
    takeWhile_append_stop isLocalChar a '[' b (by decide)
  rw [htwb] at hl hlp0
  have hlplen : (a.takeWhile isLocalChar).length ≤ a.length :=
    (List.takeWhile_sublist _).length_le
  -- split `a` as local part, '@', and the rest
  have hdropb : (a ++ '[' :: b).drop (a.takeWhile isLocalChar).length =
      a.drop (a.takeWhile isLocalChar).length ++ '[' :: b :=
    List.drop_append_of_le_length hlplen
  have hdrop_eq : a.drop (a.takeWhile isLocalChar).length ++ '[' :: b = '@' :: a2 := by
    rw [← hdropb]
    conv_lhs => rw [hl]
    exact List.drop_left _ _
  cases hda : a.drop (a.takeWhile isLocalChar).length with
  | nil =>
    rw [hda] at hdrop_eq
    simp only [List.nil_append, List.cons.injEq] at hdrop_eq
    exact absurd hdrop_eq.1 (by decide)
  | cons c0 a2' =>
    rw [hda] at hdrop_eq
    simp only [List.cons_append, List.cons.injEq] at hdrop_eq
    obtain ⟨rfl, ha2⟩ := hdrop_eq
    -- a = lp ++ '@' :: a2'
    have ha_split : a = a.takeWhile isLocalChar ++ '@' :: a2' := by
      conv_lhs => rw [← takeWhile_append_drop isLocalChar a]
      rw [hda]
    -- the backtracking split survives in a2'
    rw [← ha2] at hbt
    obtain ⟨j, t, hj1, hjm, hdot, -⟩ := domainBT_some hbt
    have htwa2 : (a2' ++ '[' :: b).takeWhile isDomainChar = a2'.takeWhile isDomainChar :=
      takeWhile_append_stop isDomainChar a2' '[' b (by decide)
    rw [htwa2] at hjm
    have hja2 : j ≤ a2'.length :=
      le_trans hjm (List.takeWhile_sublist _).length_le
    have hdropj : (a2' ++ '[' :: b).drop j = a2'.drop j ++ '[' :: b :=
      List.drop_append_of_le_length hja2
    rw [hdropj] at hdot
    obtain ⟨tl, htl, htl2, -⟩ := matchDotTld_some hdot
    cases hdja : a2'.drop j with
    | nil =>
      rw [hdja] at htl
      simp only [List.nil_append, List.cons.injEq] at htl
      exact absurd htl.1 (by decide)
    | cons e0 a3 =>
      rw [hdja] at htl
      simp only [List.cons_append, List.cons.injEq] at htl
      obtain ⟨rfl, ha3⟩ := htl
      have htl2' : 2 ≤ (a3.takeWhile Char.isAlpha).length := by
        rw [← ha3] at htl2
        rwa [takeWhile_append_stop Char.isAlpha a3 '[' b (by decide)] at htl2
      -- now build the match in `a ++ d`
      have hlpmem : ∀ x ∈ a.takeWhile isLocalChar, isLocalChar x = true :=
        fun x hx => List.mem_takeWhile_imp hx
      have hkey : a ++ d = a.takeWhile isLocalChar ++ '@' :: (a2' ++ d) := by
        conv_lhs => rw [ha_split]
        simp
      have htwd : (a ++ d).takeWhile isLocalChar = a.takeWhile isLocalChar := by
        rw [hkey, takeWhile_all_append isLocalChar _ _ hlpmem, List.takeWhile_cons]
        rw [if_neg (by decide)]
        simp
      have hdropd : (a ++ d).drop (a.takeWhile isLocalChar).length = '@' :: (a2' ++ d) := by
        rw [hkey]
        exact List.drop_left _ _
      have hmd : j ≤ ((a2' ++ d).takeWhile isDomainChar).length :=
        le_trans hjm (takeWhile_length_mono isDomainChar a2' d)
      have hdotd : matchDotTld ((a2' ++ d).drop j) ≠ none := by
        have : (a2' ++ d).drop j = '.' :: (a3 ++ d) := by
          rw [List.drop_append_of_le_length hja2, hdja]
          rfl
        rw [this]
        have hta : 2 ≤ ((a3 ++ d).takeWhile Char.isAlpha).length :=
          le_trans htl2' (takeWhile_length_mono Char.isAlpha a3 d)
        rw [matchDotTld_of_valid hta]
        simp
      have hbtd : domainBT (a2' ++ d) ((a2' ++ d).takeWhile isDomainChar).length ≠ none :=
        domainBT_ne_none hj1 hmd hdotd
      rw [matchEmailAt, htwd, if_neg hlp0, hdropd]
      dsimp only
      rw [if_pos rfl]
      cases hbtv : domainBT (a2' ++ d) ((a2' ++ d).takeWhile isDomainChar).length with
      | some q => simp
      | none => exact absurd hbtv hbtd

/-- Email-matcher bracket stability for `brAg`. -/
theorem matchEmailAt_brAg {x y : List Char} (hag : brAg x y)
    (hy : matchEmailAt y = none) : matchEmailAt x = none := by
  rcases hag with rfl | ⟨a, b, c, rfl, rfl⟩
  · exact hy
  · cases hx : matchEmailAt (a ++ '[' :: b) with
    | none => rfl
    | some n => exact absurd hy (matchEmailAt_bracket hx)

theorem matchPhoneCore_bracket {a b d : List Char} {n : Nat}
    (h : matchPhoneCore (a ++ '[' :: b) = some n) : matchPhoneCore (a ++ d) ≠ none := by
  cases a with
  | nil =>
    rw [List.nil_append, matchPhoneCore] at h
    rw [if_neg (by decide)] at h
    cases h
  | cons c0 a1 =>
    rw [List.cons_append, matchPhoneCore] at h
    by_cases hc0 : c0.isDigit = true
    · rw [if_pos hc0] at h
      cases hld : lastDigit7 ((a1 ++ '[' :: b).takeWhile isPhoneChar) with
      | none => rw [hld] at h; cases h
      | some k =>
        have htwb : (a1 ++ '[' :: b).takeWhile isPhoneChar = a1.takeWhile isPhoneChar :=
          takeWhile_append_stop isPhoneChar a1 '[' b (by decide)
        rw [htwb] at hld
        obtain ⟨h7, d2, hget, hd2⟩ := lastDigit7_some hld
        have hklt : k < (a1.takeWhile isPhoneChar).length := (List.get?_eq_some.mp hget).1
        have hgetd : ((a1 ++ d).takeWhile isPhoneChar).get? k = some d2 := by
          obtain ⟨w, hw⟩ := takeWhile_append_extend isPhoneChar a1 d
          rw [hw, List.get?_append hklt]
          exact hget
        have hnn := lastDigit7_ne_none hgetd hd2 h7
        rw [List.cons_append, matchPhoneCore, if_pos hc0]
        cases hldd : lastDigit7 ((a1 ++ d).takeWhile isPhoneChar) with
        | some q => simp
        | none => exact absurd hldd hnn
    · rw [if_neg hc0] at h
      cases h

theorem matchPhoneAt_bracket {a b d : List Char} {n : Nat}
    (h : matchPhoneAt (a ++ '[' :: b) = some n) : matchPhoneAt (a ++ d) ≠ none := by
  cases a with
  | nil =>
    rw [List.nil_append, matchPhoneAt] at h
    rw [if_neg (by decide), matchPhoneCore, if_neg (by decide)] at h
    cases h
  | cons c0 a1 =>
    rw [List.cons_append, matchPhoneAt] at h
    rw [List.cons_append, matchPhoneAt]
    by_cases hc0 : c0 = '+'
    · rw [if_pos hc0] at h
      rw [if_pos hc0]
      obtain ⟨m, hm, -⟩ : ∃ m, matchPhoneCore (a1 ++ '[' :: b) = some m ∧ n = m + 1 := by
        rcases Option.map_eq_some'.mp h with ⟨m, hm, hf⟩
        exact ⟨m, hm, hf.symm⟩
      have := matchPhoneCore_bracket (d := d) hm
      cases hcd : matchPhoneCore (a1 ++ d) with
      | some q => simp
      | none => exact absurd hcd this
    · rw [if_neg hc0] at h
      rw [if_neg hc0]
      exact matchPhoneCore_bracket (a := c0 :: a1) (b := b) (d := d) h

/-- Phone-matcher bracket stability for `brAg`. -/
theorem matchPhoneAt_brAg {x y : List Char} (hag : brAg x y)
    (hy : matchPhoneAt y = none) : matchPhoneAt x = none := by
  rcases hag with rfl | ⟨a, b, c, rfl, rfl⟩
  · exact hy
  · cases hx : matchPhoneAt (a ++ '[' :: b) with
    | none => rfl
    | some n => exact absurd hy (matchPhoneAt_bracket hx)

/-- An `EMAIL_RE` match cannot start at a local-character run that is
followed by something other than `@`. -/
theorem matchEmailAt_stop_not_at {u : List Char} {x : Char} (v : List Char)
    (hu : ∀ c ∈ u, isLocalChar c = true) (hx : isLocalChar x = false) (hxa : x ≠ '@') :
    matchEmailAt (u ++ x :: v) = none := by
  have htw : (u ++ x :: v).takeWhile isLocalChar = u :=
    (takeWhile_append_stop isLocalChar u x v hx).trans (List.takeWhile_eq_self_iff.mpr hu)
  rw [matchEmailAt, htw]
  by_cases hu0 : u.length = 0
  · rw [if_pos hu0]
  · rw [if_neg hu0]
    rw [List.drop_left u (x :: v)]
    dsimp only
    rw [if_neg hxa]

/-- A `PHONE_RE` match cannot start at a character that is neither `+` nor
a digit. -/
theorem matchPhoneAt_head {c : Char} (x : List Char) (hc1 : c ≠ '+')
    (hc2 : c.isDigit = false) : matchPhoneAt (c :: x) = none := by
  rw [matchPhoneAt, if_neg hc1, matchPhoneCore, if_neg (by simp [hc2])]

/-- No `EMAIL_RE` match can start inside the `[email]` token. -/
theorem emailTok_dead_email : ∀ s d : List Char, suffOf s "[email]".data → s ≠ [] →
    matchEmailAt (s ++ d) = none := by
  intro s d hs hne
  have h0 : "[email]".data = '[' :: 'e' :: 'm' :: 'a' :: 'i' :: 'l' :: ']' :: [] := by
    decide
  rw [h0] at hs
  rcases suffOf_cons_elim hs with rfl | hs
  · exact matchEmailAt_stop_not_at (u := []) _ (by simp) (by decide) (by decide)
  rcases suffOf_cons_elim hs with rfl | hs
  · exact matchEmailAt_stop_not_at (u := ['e', 'm', 'a', 'i', 'l']) _ (by decide)
      (by decide) (by decide)
  rcases suffOf_cons_elim hs with rfl | hs
  · exact matchEmailAt_stop_not_at (u := ['m', 'a', 'i', 'l']) _ (by decide)
      (by decide) (by decide)
  rcases suffOf_cons_elim hs with rfl | hs
  · exact matchEmailAt_stop_not_at (u := ['a', 'i', 'l']) _ (by decide)
      (by decide) (by decide)
  rcases suffOf_cons_elim hs with rfl | hs
  · exact matchEmailAt_stop_not_at (u := ['i', 'l']) _ (by decide)
      (by decide) (by decide)
  rcases suffOf_cons_elim hs with rfl | hs
  · exact matchEmailAt_stop_not_at (u := ['l']) _ (by decide) (by decide) (by decide)
  rcases suffOf_cons_elim hs with rfl | hs
  · exact matchEmailAt_stop_not_at (u := []) _ (by simp) (by decide) (by decide)
  · obtain ⟨u, hu⟩ := hs
    exact absurd (List.append_eq_nil.mp hu).2 hne

/-- No `EMAIL_RE` match can start inside the `[phone]` token. -/
theorem phoneTok_dead_email : ∀ s d : List Char, suffOf s "[phone]".data → s ≠ [] →
    matchEmailAt (s ++ d) = none := by
  intro s d hs hne
  have h0 : "[phone]".data = '[' :: 'p' :: 'h' :: 'o' :: 'n' :: 'e' :: ']' :: [] := by
    decide
  rw [h0] at hs
  rcases suffOf_cons_elim hs with rfl | hs
  · exact matchEmailAt_stop_not_at (u := []) _ (by simp) (by decide) (by decide)
  rcases suffOf_cons_elim hs with rfl | hs
  · exact matchEmailAt_stop_not_at (u := ['p', 'h', 'o', 'n', 'e']) _ (by decide)
      (by decide) (by decide)
  rcases suffOf_cons_elim hs with rfl | hs
  · exact matchEmailAt_stop_not_at (u := ['h', 'o', 'n', 'e']) _ (by decide)
      (by decide) (by decide)
  rcases suffOf_cons_elim hs with rfl | hs
  · exact matchEmailAt_stop_not_at (u := ['o', 'n', 'e']) _ (by decide)
      (by decide) (by decide)
  rcases suffOf_cons_elim hs with rfl | hs
  · exact matchEmailAt_stop_not_at (u := ['n', 'e']) _ (by decide) (by decide) (by decide)
  rcases suffOf_cons_elim hs with rfl | hs
  · exact matchEmailAt_stop_not_at (u := ['e']) _ (by decide) (by decide) (by decide)
  rcases suffOf_cons_elim hs with rfl | hs
  · exact matchEmailAt_stop_not_at (u := []) _ (by simp) (by decide) (by decide)
  · obtain ⟨u, hu⟩ := hs
    exact absurd (List.append_eq_nil.mp hu).2 hne

/-- No `PHONE_RE` match can start inside the `[phone]` token. -/
theorem phoneTok_dead_phone : ∀ s d : List Char, suffOf s "[phone]".data → s ≠ [] →
    matchPhoneAt (s ++ d) = none := by
  intro s d hs hne
  have h0 : "[phone]".data = '[' :: 'p' :: 'h' :: 'o' :: 'n' :: 'e' :: ']' :: [] := by
    decide
  rw [h0] at hs
  rcases suffOf_cons_elim hs with rfl | hs
  · exact matchPhoneAt_head _ (by decide) (by decide)
  rcases suffOf_cons_elim hs with rfl | hs
  · exact matchPhoneAt_head _ (by decide) (by decide)
  rcases suffOf_cons_elim hs with rfl | hs
  · exact matchPhoneAt_head _ (by decide) (by decide)
  rcases suffOf_cons_elim hs with rfl | hs
  · exact matchPhoneAt_head _ (by decide) (by decide)
  rcases suffOf_cons_elim hs with rfl | hs
  · exact matchPhoneAt_head _ (by decide) (by decide)
  rcases suffOf_cons_elim hs with rfl | hs
  · exact matchPhoneAt_head _ (by decide) (by decide)
  rcases suffOf_cons_elim hs with rfl | hs
  · exact matchPhoneAt_head _ (by decide) (by decide)
  · obtain ⟨u, hu⟩ := hs
    exact absurd (List.append_eq_nil.mp hu).2 hne

/-- Master lemma: after substituting every `f`-match by a bracketed token,
no suffix of the output matches `f` any more. -/
theorem subAll_no_match (f : List Char → Option Nat) (tk : List Char)
    (hstable : ∀ x y, brAg x y → f y = none → f x = none)
    (htok : ∀ s d, suffOf s ('[' :: tk) → s ≠ [] → f (s ++ d) = none)
    (hnil : f [] = none) :
    ∀ l s, suffOf s (subAll f ('[' :: tk) l) → f s = none := by
  have key : ∀ N l, l.length ≤ N → ∀ s, suffOf s (subAll f ('[' :: tk) l) → f s = none := by
    intro N
    induction N with
    | zero =>
      intro l hl s hs
      have : l = [] := List.eq_nil_of_length_eq_zero (Nat.le_zero.mp hl)
      subst this
      obtain ⟨u, hu⟩ := hs
      have : s = [] := (List.append_eq_nil.mp hu).2
      rw [this]
      exact hnil
    | succ N ih =>
      intro l hl s hs
      cases l with
      | nil =>
        obtain ⟨u, hu⟩ := hs
        have : s = [] := (List.append_eq_nil.mp hu).2
        rw [this]
        exact hnil
      | cons c rest =>
        rw [subAll_cons] at hs
        simp only [List.length_cons] at hl
        cases hm : f (c :: rest) with
        | some n =>
          rw [hm] at hs
          dsimp only at hs
          have hs' : suffOf s (('[' :: tk) ++ subAll f ('[' :: tk) (rest.drop (n - 1))) := by
            simpa using hs
          rcases suffOf_append_elim hs' with ⟨w, hw, hwne, rfl⟩ | htail
          · exact htok w _ hw hwne
          · exact ih (rest.drop (n - 1)) (by simp only [List.length_drop]; omega) s htail
        | none =>
          rw [hm] at hs
          dsimp only at hs
          rcases suffOf_cons_elim hs with rfl | htail
          · exact hstable _ _ (brAg_cons c (subAll_brAg f tk rest)) hm
          · exact ih rest (by omega) s htail
  exact fun l => key l.length l (Nat.le_refl _)

/-- Preservation lemma: substituting with another matcher `g` (whose token
is also bracketed) cannot create a new `f`-match. -/
theorem subAll_preserve (f g : List Char → Option Nat) (tk : List Char)
    (hstable : ∀ x y, brAg x y → f y = none → f x = none)
    (htok : ∀ s d, suffOf s ('[' :: tk) → s ≠ [] → f (s ++ d) = none)
    (hnil : f [] = none) :
    ∀ l, (∀ s, suffOf s l → f s = none) →
      ∀ s, suffOf s (subAll g ('[' :: tk) l) → f s = none := by
  have key : ∀ N l, l.length ≤ N → (∀ s, suffOf s l → f s = none) →
      ∀ s, suffOf s (subAll g ('[' :: tk) l) → f s = none := by
    intro N
    induction N with
    | zero =>
      intro l hl _ s hs
      have : l = [] := List.eq_nil_of_length_eq_zero (Nat.le_zero.mp hl)
      subst this
      obtain ⟨u, hu⟩ := hs
      rw [(List.append_eq_nil.mp hu).2]
      exact hnil
    | succ N ih =>
      intro l hl hml s hs
      cases l with
      | nil =>
        obtain ⟨u, hu⟩ := hs
        rw [(List.append_eq_nil.mp hu).2]
        exact hnil
      | cons c rest =>
        rw [subAll_cons] at hs
        simp only [List.length_cons] at hl
        cases hm : g (c :: rest) with
        | some n =>
          rw [hm] at hs
          dsimp only at hs
          have hs' : suffOf s (('[' :: tk) ++ subAll g ('[' :: tk) (rest.drop (n - 1))) := by
            simpa using hs
          rcases suffOf_append_elim hs' with ⟨w, hw, hwne, rfl⟩ | htail
          · exact htok w _ hw hwne
          · refine ih (rest.drop (n - 1)) (by simp only [List.length_drop]; omega) ?_ s htail
            intro s' hs'
            exact hml s' (suffOf_of_suffOf_tail (suffOf_trans hs' (suffOf_drop rest (n - 1))))
        | none =>
          rw [hm] at hs
          dsimp only at hs
          rcases suffOf_cons_elim hs with rfl | htail
          · exact hstable _ _ (brAg_cons c (subAll_brAg g tk rest))
              (hml (c :: rest) (suffOf_refl _))
          · refine ih rest (by omega) ?_ s htail
            intro s' hs'
            exact hml s' (suffOf_of_suffOf_tail hs')
  exact fun l => key l.length l (Nat.le_refl _)

/-- C8: the transcript anonymizer is idempotent — anonymizing already
anonymized text changes nothing: the inserted `[email]`/`[phone]` tokens
contain no `@` and no digit, their brackets belong to no character class of
either pattern, so the output of the first pass contains no further
`EMAIL_RE` or `PHONE_RE` match. -/
theorem c8_anonymize_idempotent (t : String) :
    anonymize_text (anonymize_text t) = anonymize_text t := by
  have hetok : "[email]".data = '[' :: "email]".data := by decide
  have hptok : "[phone]".data = '[' :: "phone]".data := by decide
  have hnil_e : matchEmailAt [] = none := by decide
  have hnil_p : matchPhoneAt [] = none := by decide
  have hstable_e : ∀ x y, brAg x y → matchEmailAt y = none → matchEmailAt x = none :=
    fun x y hag hy => matchEmailAt_brAg hag hy
  have hstable_p : ∀ x y, brAg x y → matchPhoneAt y = none → matchPhoneAt x = none :=
    fun x y hag hy => matchPhoneAt_brAg hag hy
  have hetok_dead := emailTok_dead_email
  have hptok_dead_e := phoneTok_dead_email
  have hptok_dead_p := phoneTok_dead_phone
  rw [hetok] at hetok_dead
  rw [hptok] at hptok_dead_e hptok_dead_p
  -- x: the text after the email pass; u: after the phone pass
  have noEmail_x : ∀ s, suffOf s (subAll matchEmailAt ('[' :: "email]".data) t.data) →
      matchEmailAt s = none :=
    subAll_no_match matchEmailAt "email]".data hstable_e hetok_dead hnil_e t.data
  have noEmail_u : ∀ s,
      suffOf s (subAll matchPhoneAt ('[' :: "phone]".data)
        (subAll matchEmailAt ('[' :: "email]".data) t.data)) →
      matchEmailAt s = none :=
    subAll_preserve matchEmailAt matchPhoneAt "phone]".data hstable_e hptok_dead_e
      hnil_e _ noEmail_x
  have noPhone_u : ∀ s,
      suffOf s (subAll matchPhoneAt ('[' :: "phone]".data)
        (subAll matchEmailAt ('[' :: "email]".data) t.data)) →
      matchPhoneAt s = none :=
    subAll_no_match matchPhoneAt "phone]".data hstable_p hptok_dead_p hnil_p _
  rw [anonymize_text, anonymize_text, hetok, hptok]
  have hu_data : (String.mk (subAll matchPhoneAt ('[' :: "phone]".data)
      (subAll matchEmailAt ('[' :: "email]".data) t.data))).data =
      subAll matchPhoneAt ('[' :: "phone]".data)
        (subAll matchEmailAt ('[' :: "email]".data) t.data) := rfl
  rw [hu_data]
  rw [subAll_id matchEmailAt _ _ noEmail_u]
  rw [subAll_id matchPhoneAt _ _ noPhone_u]
